import Mathlib

/-!
Shallow embedding of the commit-analysis pipeline of this repository
(`git_analyzer.py`, `html_parser.py`, `main.py`) and theorems settling the
specification claims about it.

Modelling conventions:
* Python strings are modelled as `String` where only whole-string equality
  and prefix/suffix tests matter, and as `List Char` where character-level
  parsing or diffing is involved.
* Machine floats are modelled as exact rationals (ℚ); the single irrational
  operation, the square root inside `numpy.std`, is modelled with
  `Real.sqrt`.
* Timestamps are modelled as (rational or integer) seconds.
* Network effects are modelled by passing the data the network would
  deliver as an explicit argument.
-/

namespace GitAnalyzer

/-- `calculate_result` (git_analyzer.py lines 70-76): the provisional grade
derived from a file's commit count alone. -/
def calculate_result (count : ℤ) : String :=
  if count = 1 then "fail"
  else if 2 ≤ count ∧ count < 5 then "warning"
  else "success"

/-- One row of the report table consumed by `save_dataframe_as_html`
(html_parser.py).  Only the columns the claims are about are modelled: the
three z-scored metrics (총 커밋 수, 평균 수정 라인 수, 코딩 시간 in minutes), the
code-similarity column (`None` models `NaN`), the 평가 (grade) column and
the derived `outlier_count` column. -/
structure ReportRow where
  commitCount : ℚ
  meanChanges : ℚ
  codingMinutes : ℚ
  similarity : Option ℚ
  evalGrade : String
  outlierCount : ℕ
deriving DecidableEq, Repr

/-- html_parser.py lines 138-140: the 평가 column is assigned `success`,
then overwritten with `fail` where `outlier_count >= 3`, then with
`warning` where `1 <= outlier_count < 3`.  Only the outlier count is read;
the grade already stored in the row is never consulted. -/
def applyFinalEval (r : ReportRow) : ReportRow :=
  let r1 := { r with evalGrade := "success" }
  let r2 := if 3 ≤ r1.outlierCount then { r1 with evalGrade := "fail" } else r1
  let r3 :=
    if 1 ≤ r2.outlierCount ∧ r2.outlierCount < 3 then { r2 with evalGrade := "warning" }
    else r2
  r3

/-- Python `int(_)` applied to a rational: truncation toward zero
(`Int.tdiv` of numerator by denominator is T-division). -/
def pyTruncate (q : ℚ) : ℤ := Int.tdiv q.num q.den

/-- `calculate_duration` (git_analyzer.py lines 169-172): the two
timestamps are rational seconds; `duration.total_seconds() / 60` is
truncated by `int` and rendered as a Korean minute string. -/
def calculate_duration (start_time end_time : ℚ) : String :=
  toString (pyTruncate ((end_time - start_time) / 60)) ++ "분"

/-- The final grade of a row as a function of its outlier count. -/
theorem applyFinalEval_evalGrade (r : ReportRow) :
    (applyFinalEval r).evalGrade =
      if 1 ≤ r.outlierCount ∧ r.outlierCount < 3 then "warning"
      else if 3 ≤ r.outlierCount then "fail" else "success" := by
  by_cases h3 : 3 ≤ r.outlierCount <;>
    by_cases h1 : 1 ≤ r.outlierCount ∧ r.outlierCount < 3 <;>
      simp [applyFinalEval, h3, h1]

/-- C1: two distinct grade mappings exist and are not conflated: the
provisional grade `calculate_result` maps a commit count `c ≥ 1` to `fail`
at 1, `warning` on 2-4 and `success` from 5 on, while the final grade of
the report builder maps an outlier count of 0 to `success`, 1-2 to
`warning` and 3 or more to `fail`, and the final grade overwrites the 평가
column without depending on the grade previously stored there. -/
theorem grade_mappings_distinct :
    (∀ count : ℤ, 1 ≤ count →
      (count = 1 → calculate_result count = "fail") ∧
      (2 ≤ count ∧ count < 5 → calculate_result count = "warning") ∧
      (5 ≤ count → calculate_result count = "success")) ∧
    (∀ r : ReportRow,
      (r.outlierCount = 0 → (applyFinalEval r).evalGrade = "success") ∧
      (1 ≤ r.outlierCount ∧ r.outlierCount < 3 → (applyFinalEval r).evalGrade = "warning") ∧
      (3 ≤ r.outlierCount → (applyFinalEval r).evalGrade = "fail")) ∧
    (∀ (r : ReportRow) (g : String),
      (applyFinalEval { r with evalGrade := g }).evalGrade = (applyFinalEval r).evalGrade) := by
  refine ⟨fun count _ => ⟨?_, ?_, ?_⟩, fun r => ⟨?_, ?_, ?_⟩, fun r g => ?_⟩
  · intro h; simp [calculate_result, h]
  · intro h; rw [calculate_result]; rw [if_neg (by omega), if_pos h]
  · intro h; rw [calculate_result]; rw [if_neg (by omega), if_neg (by omega)]
  · intro h; rw [applyFinalEval_evalGrade, if_neg (by omega), if_neg (by omega)]
  · intro h; rw [applyFinalEval_evalGrade, if_pos h]
  · intro h; rw [applyFinalEval_evalGrade, if_neg (by omega), if_pos h]
  · rw [applyFinalEval_evalGrade, applyFinalEval_evalGrade]

/-- Witness for C1 at concrete inputs. -/
theorem grade_mappings_distinct_witness :
    calculate_result 1 = "fail" ∧ calculate_result 3 = "warning" ∧
      calculate_result 6 = "success" ∧
      (applyFinalEval ⟨1, 1, 1, none, "fail", 0⟩).evalGrade = "success" ∧
      (applyFinalEval ⟨1, 1, 1, none, "success", 2⟩).evalGrade = "warning" ∧
      (applyFinalEval ⟨1, 1, 1, none, "success", 3⟩).evalGrade = "fail" ∧
      (applyFinalEval ⟨1, 1, 1, none, "warning", 3⟩).evalGrade =
        (applyFinalEval ⟨1, 1, 1, none, "success", 3⟩).evalGrade :=
  ⟨(grade_mappings_distinct.1 1 (by norm_num)).1 rfl,
   (grade_mappings_distinct.1 3 (by norm_num)).2.1 (by norm_num),
   (grade_mappings_distinct.1 6 (by norm_num)).2.2 (by norm_num),
   (grade_mappings_distinct.2.1 ⟨1, 1, 1, none, "fail", 0⟩).1 rfl,
   (grade_mappings_distinct.2.1 ⟨1, 1, 1, none, "success", 2⟩).2.1 (by norm_num),
   (grade_mappings_distinct.2.1 ⟨1, 1, 1, none, "success", 3⟩).2.2 (by norm_num),
   grade_mappings_distinct.2.2 ⟨1, 1, 1, none, "success", 3⟩ "warning"⟩

/-- C10: for every commit count at or below 0 (outside the documented
`commit_count ≥ 1` domain) `calculate_result` falls through to the
catch-all branch and returns `success`, the same grade as counts of 5 or
more, never `fail`. -/
theorem calculate_result_nonpositive_success :
    ∀ count : ℤ, count ≤ 0 →
      calculate_result count = "success" ∧ calculate_result count ≠ "fail" ∧
      ∀ big : ℤ, 5 ≤ big → calculate_result count = calculate_result big := by
  intro count h
  have hc : calculate_result count = "success" := by
    rw [calculate_result, if_neg (by omega), if_neg (by omega)]
  refine ⟨hc, by rw [hc]; decide, fun big hbig => ?_⟩
  rw [hc, calculate_result, if_neg (by omega), if_neg (by omega)]

/-- Witness for C10: a commit count of 0 is graded `success`. -/
theorem calculate_result_nonpositive_success_witness :
    calculate_result 0 = "success" ∧ calculate_result 0 ≠ "fail" ∧
      calculate_result 0 = calculate_result 5 :=
  ⟨(calculate_result_nonpositive_success 0 (by norm_num)).1,
   (calculate_result_nonpositive_success 0 (by norm_num)).2.1,
   (calculate_result_nonpositive_success 0 (by norm_num)).2.2 5 (by norm_num)⟩

/-- C8: for timestamps with `first_date ≤ last_date`, `calculate_duration`
returns `"<N>분"` where `N` is the span in seconds divided by 60 and
truncated toward zero, which on a nonnegative span is the floor. -/
theorem calculate_duration_floor_minutes :
    ∀ start_time end_time : ℚ, start_time ≤ end_time →
      calculate_duration start_time end_time =
        toString ⌊(end_time - start_time) / 60⌋ ++ "분" := by
  intro s e h
  have hq : (0 : ℚ) ≤ (e - s) / 60 := by
    apply div_nonneg (by linarith) (by norm_num)
  have hnum : 0 ≤ ((e - s) / 60).num := Rat.num_nonneg.mpr hq
  have hden : (0 : ℤ) ≤ ((e - s) / 60).den := Int.ofNat_nonneg _
  rw [calculate_duration, pyTruncate, Int.tdiv_eq_ediv hnum hden, ← Rat.floor_def]

/-- Witness for C8: equal timestamps give `0분`, a 9000-second span gives
`150분`, and an 89.9-second span gives `1분`. -/
theorem calculate_duration_floor_minutes_witness :
    ((0 : ℚ) ≤ 0 ∧ calculate_duration 0 0 = "0분") ∧
      ((0 : ℚ) ≤ 9000 ∧ calculate_duration 0 9000 = "150분") ∧
      ((0 : ℚ) ≤ 899 / 10 ∧ calculate_duration 0 (899 / 10) = "1분") :=
  ⟨⟨le_refl 0, (calculate_duration_floor_minutes 0 0 (le_refl 0)).trans
      (by rw [show (⌊((0 : ℚ) - 0) / 60⌋ : ℤ) = 0 by norm_num]; rfl)⟩,
   ⟨by norm_num, (calculate_duration_floor_minutes 0 9000 (by norm_num)).trans
      (by rw [show (⌊((9000 : ℚ) - 0) / 60⌋ : ℤ) = 150 by norm_num]; rfl)⟩,
   ⟨by norm_num, (calculate_duration_floor_minutes 0 (899 / 10) (by norm_num)).trans
      (by rw [show (⌊((899 / 10 : ℚ) - 0) / 60⌋ : ℤ) = 1 by norm_num]; rfl)⟩⟩

/-! ### Repository resolver (`extract_repo_info`) -/

/-- Match a literal piece of a regex pattern at the head of the input,
returning the unconsumed remainder. -/
def stripLit : List Char → List Char → Option (List Char)
  | [], s => some s
  | _ :: _, [] => none
  | c :: cs, d :: ds => if d = c then stripLit cs ds else none

/-- The regex match of git_analyzer.py line 25,
`re.match(r"https://github\.com/([^/]+)/([^/]+)", url)`: the literal
prefix, then two nonempty maximal runs of non-slash characters separated
by a slash.  `re.match` anchors only at the start, so trailing input after
the second group is ignored.  Returns the two capture groups. -/
def matchRepoUrl (url : List Char) : Option (List Char × List Char) :=
  match stripLit "https://github.com/".data url with
  | none => none
  | some rest =>
    let owner := rest.takeWhile (fun c => c != '/')
    if owner = [] then none
    else
      match rest.drop owner.length with
      | [] => none
      | d :: rest2 =>
        if d = '/' then
          let repo := rest2.takeWhile (fun c => c != '/')
          if repo = [] then none else some (owner, repo)
        else none

/-- git_analyzer.py line 31: `repo.rstrip("/")`. -/
def rstripSlash (l : List Char) : List Char :=
  (l.reverse.dropWhile (fun c => c == '/')).reverse

/-- git_analyzer.py lines 32-33: drop a trailing `.git` when present. -/
def stripDotGit (l : List Char) : List Char :=
  if ".git".data.isSuffixOf l then l.take (l.length - 4) else l

/-- The typed failures `extract_repo_info` can raise: `ValueError` for a
malformed URL, `ConnectionError` for a transport failure, RepoNotFoundError
naming owner and repo, RepoPermissionError in its rate-limit and generic
flavours, and `RuntimeError` carrying the status code and a body snippet. -/
inductive RepoFailure where
  | invalidUrl : RepoFailure
  | connection : RepoFailure
  | notFound (owner repo : List Char) : RepoFailure
  | rateLimited : RepoFailure
  | permissionDenied : RepoFailure
  | apiError (status : ℕ) (snippet : List Char) : RepoFailure
deriving DecidableEq, Repr

/-- A GitHub API response as `extract_repo_info` consumes it: the HTTP
status code, the `message` field of the JSON body, and the raw body text. -/
structure ApiResponse where
  status : ℕ
  message : List Char
  body : List Char
deriving DecidableEq, Repr

/-- Python `str.lower` over the ASCII characters the code compares. -/
def lowerStr (l : List Char) : List Char := l.map Char.toLower

/-- Python's substring test `needle in hay`. -/
def containsSub (n : List Char) : List Char → Bool
  | [] => n.isEmpty
  | c :: t => n.isPrefixOf (c :: t) || containsSub n t

/-- `extract_repo_info` (git_analyzer.py lines 18-67).  The single
`requests.get` is modelled by passing the response the network would
deliver (`none` models a raised `requests.RequestException`); the URL is
parsed, and the repo name cleaned of a trailing slash and `.git`, before
the response is ever inspected. -/
def extract_repo_info (url : List Char) (response : Option ApiResponse) :
    Except RepoFailure (List Char × List Char) :=
  match matchRepoUrl url with
  | none => .error .invalidUrl
  | some (owner, repo0) =>
    let repo := stripDotGit (rstripSlash repo0)
    match response with
    | none => .error .connection
    | some resp =>
      if resp.status = 404 then .error (.notFound owner repo)
      else if resp.status = 401 ∨ resp.status = 403 then
        if containsSub "rate limit".data (lowerStr resp.message) then .error .rateLimited
        else .error .permissionDenied
      else if resp.status ≠ 200 then .error (.apiError resp.status (resp.body.take 200))
      else .ok (owner, repo)

theorem stripLit_append (p s : List Char) : stripLit p (p ++ s) = some s := by
  induction p with
  | nil => rfl
  | cons c cs ih => simp [stripLit, ih]

theorem dropWhile_eq_self_of_all {p : Char → Bool} {l : List Char}
    (h : ∀ c ∈ l, p c = false) : l.dropWhile p = l := by
  cases l with
  | nil => rfl
  | cons c cs =>
    exact List.dropWhile_cons_of_neg (by simp [h c (List.mem_cons_self c cs)])

theorem rstripSlash_of_no_slash {l : List Char} (h : ∀ c ∈ l, c ≠ '/') :
    rstripSlash l = l := by
  rw [rstripSlash, dropWhile_eq_self_of_all, List.reverse_reverse]
  intro c hc
  simp only [List.mem_reverse] at hc
  simp [h c hc]

theorem stripDotGit_append_git (l : List Char) :
    stripDotGit (l ++ ".git".data) = l := by
  rw [stripDotGit, if_pos (by simp [List.isSuffixOf_iff_suffix, List.suffix_append])]
  exact List.take_left' (by simp)

theorem stripDotGit_of_not_suffix {l : List Char} (h : ¬ ".git".data <:+ l) :
    stripDotGit l = l := by
  rw [stripDotGit, if_neg (by simpa [List.isSuffixOf_iff_suffix] using h)]

/-- The two regex capture groups on a well-formed GitHub URL with optional
`.git` and trailing-slash decorations. -/
theorem matchRepoUrl_valid (owner repo gitSfx slashSfx : List Char)
    (ho : owner ≠ []) (hoc : ∀ c ∈ owner, c ≠ '/')
    (hr : repo ≠ []) (hgc : ∀ c ∈ repo ++ gitSfx, c ≠ '/')
    (hsl : slashSfx = [] ∨ slashSfx = ['/']) :
    matchRepoUrl
      ("https://github.com/".data ++ (owner ++ '/' :: (repo ++ gitSfx ++ slashSfx))) =
      some (owner, repo ++ gitSfx) := by
  have powner : ∀ c ∈ owner, (c != '/') = true := by
    intro c hc; simpa using hoc c hc
  have pgroup : ∀ c ∈ repo ++ gitSfx, (c != '/') = true := by
    intro c hc; simpa using hgc c hc
  have htw : (owner ++ '/' :: (repo ++ gitSfx ++ slashSfx)).takeWhile (fun c => c != '/') =
      owner := by
    rw [List.takeWhile_append_of_pos powner, List.takeWhile_cons_of_neg (by decide),
      List.append_nil]
  have htw2 : (repo ++ gitSfx ++ slashSfx).takeWhile (fun c => c != '/') = repo ++ gitSfx := by
    rcases hsl with h | h <;> subst h
    · rw [List.append_nil, ← List.append_nil (repo ++ gitSfx),
        List.takeWhile_append_of_pos pgroup]
      simp
    · rw [List.takeWhile_append_of_pos pgroup, List.takeWhile_cons_of_neg (by decide),
        List.append_nil]
  rw [matchRepoUrl, stripLit_append]
  dsimp only
  rw [htw, if_neg ho, List.drop_left]
  dsimp only
  rw [if_pos rfl, htw2, if_neg (by simp [hr])]

/-- C9: every valid URL `https://github.com/<owner>/<repo>`, optionally
decorated with a `.git` suffix and/or a trailing slash, resolves (here:
against a 200 response) to exactly the pair `(owner, repo)`, with the
`.git` suffix and the trailing slash stripped away. -/
theorem extract_repo_info_valid_urls :
    ∀ (owner repo : List Char) (useGit useSlash : Bool) (resp : ApiResponse),
      owner ≠ [] → (∀ c ∈ owner, c ≠ '/') →
      repo ≠ [] → (∀ c ∈ repo, c ≠ '/') →
      ¬ ".git".data <:+ repo → resp.status = 200 →
      extract_repo_info
        ("https://github.com/".data ++
          (owner ++ '/' :: (repo ++ (if useGit then ".git".data else []) ++
            (if useSlash then ['/'] else []))))
        (some resp) = .ok (owner, repo) := by
  intro owner repo useGit useSlash resp ho hoc hr hrc hng h200
  have hgit : ∀ c ∈ (if useGit then ".git".data else []), c ≠ '/' := by
    cases useGit <;> simp
  have hgc : ∀ c ∈ repo ++ (if useGit then ".git".data else []), c ≠ '/' := by
    intro c hc
    rcases List.mem_append.mp hc with h | h
    · exact hrc c h
    · exact hgit c h
  have hm := matchRepoUrl_valid owner repo (if useGit then ".git".data else [])
    (if useSlash then ['/'] else []) ho hoc hr hgc (by cases useSlash <;> simp)
  rw [extract_repo_info, hm]
  dsimp only
  rw [if_neg (by omega), if_neg (by omega), if_neg (by simp [h200])]
  have hclean : stripDotGit (rstripSlash (repo ++ (if useGit then ".git".data else []))) =
      repo := by
    rw [rstripSlash_of_no_slash hgc]
    cases useGit with
    | false =>
      show stripDotGit (repo ++ []) = repo
      rw [List.append_nil, stripDotGit_of_not_suffix hng]
    | true =>
      show stripDotGit (repo ++ ".git".data) = repo
      exact stripDotGit_append_git repo
  rw [hclean]

/-- Witness for C9 on a concrete URL with both decorations present. -/
theorem extract_repo_info_valid_urls_witness :
    extract_repo_info
      ("https://github.com/".data ++
        ("jungbini".data ++ '/' :: ("coding".data ++ (if true then ".git".data else []) ++
          (if true then ['/'] else []))))
      (some ⟨200, [], []⟩) = .ok ("jungbini".data, "coding".data) :=
  extract_repo_info_valid_urls "jungbini".data "coding".data true true ⟨200, [], []⟩
    (by decide) (by decide) (by decide) (by decide) (by decide) rfl

/-- C2: the resolver fails with exactly one typed outcome per case: a
malformed URL yields the validation error whatever the network would have
answered (no request is consulted); 404 yields the not-found error naming
owner and repo; 401/403 yields the rate-limit flavoured permission error
exactly when the lower-cased response message contains `rate limit`, and
the generic permission error otherwise; any other non-200 status yields
the generic API error carrying the status and at most 200 characters of
the body; and 200 returns the validated pair. -/
theorem extract_repo_info_outcomes :
    (∀ (url : List Char) (response : Option ApiResponse),
        matchRepoUrl url = none →
        extract_repo_info url response = .error .invalidUrl) ∧
    (∀ (url owner repo0 : List Char) (resp : ApiResponse),
        matchRepoUrl url = some (owner, repo0) → resp.status = 404 →
        extract_repo_info url (some resp) =
          .error (.notFound owner (stripDotGit (rstripSlash repo0)))) ∧
    (∀ (url owner repo0 : List Char) (resp : ApiResponse),
        matchRepoUrl url = some (owner, repo0) →
        (resp.status = 401 ∨ resp.status = 403) →
        containsSub "rate limit".data (lowerStr resp.message) = true →
        extract_repo_info url (some resp) = .error .rateLimited) ∧
    (∀ (url owner repo0 : List Char) (resp : ApiResponse),
        matchRepoUrl url = some (owner, repo0) →
        (resp.status = 401 ∨ resp.status = 403) →
        containsSub "rate limit".data (lowerStr resp.message) = false →
        extract_repo_info url (some resp) = .error .permissionDenied) ∧
    (∀ (url owner repo0 : List Char) (resp : ApiResponse),
        matchRepoUrl url = some (owner, repo0) →
        resp.status ≠ 404 → resp.status ≠ 401 → resp.status ≠ 403 → resp.status ≠ 200 →
        extract_repo_info url (some resp) =
            .error (.apiError resp.status (resp.body.take 200)) ∧
          (resp.body.take 200).length ≤ 200) ∧
    (∀ (url owner repo0 : List Char) (resp : ApiResponse),
        matchRepoUrl url = some (owner, repo0) → resp.status = 200 →
        extract_repo_info url (some resp) = .ok (owner, stripDotGit (rstripSlash repo0))) := by
  refine ⟨?_, ?_, ?_, ?_, ?_, ?_⟩
  · intro url response hm
    rw [extract_repo_info, hm]
  · intro url owner repo0 resp hm h404
    rw [extract_repo_info, hm]
    dsimp only
    rw [if_pos h404]
  · intro url owner repo0 resp hm hs hrl
    rw [extract_repo_info, hm]
    dsimp only
    rw [if_neg (by omega), if_pos hs, if_pos hrl]
  · intro url owner repo0 resp hm hs hrl
    rw [extract_repo_info, hm]
    dsimp only
    rw [if_neg (by omega), if_pos hs, if_neg (by simp [hrl])]
  · intro url owner repo0 resp hm h404 h401 h403 h200
    refine ⟨?_, List.length_take_le 200 resp.body⟩
    rw [extract_repo_info, hm]
    dsimp only
    rw [if_neg h404, if_neg (by tauto), if_pos h200]
  · intro url owner repo0 resp hm h200
    rw [extract_repo_info, hm]
    dsimp only
    rw [if_neg (by omega), if_neg (by omega), if_neg (by simp [h200])]

/-- Witness for C2 on concrete URLs and responses, one per outcome. -/
theorem extract_repo_info_outcomes_witness :
    extract_repo_info "nope".data none = .error .invalidUrl ∧
      extract_repo_info "https://github.com/o/r.git".data (some ⟨404, [], []⟩) =
        .error (.notFound "o".data "r".data) ∧
      extract_repo_info "https://github.com/o/r.git".data
          (some ⟨403, "API Rate Limit exceeded".data, []⟩) = .error .rateLimited ∧
      extract_repo_info "https://github.com/o/r.git".data
          (some ⟨403, "Bad credentials".data, []⟩) = .error .permissionDenied ∧
      extract_repo_info "https://github.com/o/r.git".data (some ⟨500, [], "boom".data⟩) =
        .error (.apiError 500 "boom".data) ∧
      extract_repo_info "https://github.com/o/r.git".data (some ⟨200, [], []⟩) =
        .ok ("o".data, "r".data) :=
  ⟨extract_repo_info_outcomes.1 "nope".data none (by decide),
   ((extract_repo_info_outcomes.2.1 "https://github.com/o/r.git".data "o".data "r.git".data
      ⟨404, [], []⟩ (by decide) rfl).trans
      (by rw [show stripDotGit (rstripSlash "r.git".data) = "r".data by decide])),
   extract_repo_info_outcomes.2.2.1 "https://github.com/o/r.git".data "o".data "r.git".data
      ⟨403, "API Rate Limit exceeded".data, []⟩ (by decide) (.inr rfl) (by decide),
   extract_repo_info_outcomes.2.2.2.1 "https://github.com/o/r.git".data "o".data "r.git".data
      ⟨403, "Bad credentials".data, []⟩ (by decide) (.inr rfl) (by decide),
   (extract_repo_info_outcomes.2.2.2.2.1 "https://github.com/o/r.git".data "o".data
      "r.git".data ⟨500, [], "boom".data⟩ (by decide) (by decide) (by decide) (by decide)
      (by decide)).1,
   ((extract_repo_info_outcomes.2.2.2.2.2 "https://github.com/o/r.git".data "o".data
      "r.git".data ⟨200, [], []⟩ (by decide) rfl).trans
      (by rw [show stripDotGit (rstripSlash "r.git".data) = "r".data by decide]))⟩

/-! ### Commit harvester (`_fetch_commits` and `analyze_commits`) -/

/-- Python `s.startswith(p)` over the underlying character lists. -/
def pyStartsWith (s p : String) : Bool := p.data.isPrefixOf s.data

/-- Python `s.endswith(p)` over the underlying character lists. -/
def pyEndsWith (s p : String) : Bool := p.data.isSuffixOf s.data

/-- One entry of the `files` array of a commit detail response. -/
structure ChangedFile where
  filename : String
  status : String
  changes : ℕ
  additions : ℕ
  deletions : ℕ
deriving DecidableEq, Repr

/-- One commit as the harvester sees it once list and detail requests have
answered: the GitHub login of its author (what the `author=` query
parameter filters on), the display name stored in the commit metadata
(`commit.author.name`), the author date in UTC seconds, the html url of
the detail response and its changed files. -/
structure CommitInfo where
  authorLogin : String
  authorName : String
  dateUtc : ℤ
  htmlUrl : String
  files : List ChangedFile
deriving DecidableEq, Repr

/-- A CommitFileRecord: one dict appended to `raw_data` per surviving
(commit, changed file) pair (git_analyzer.py lines 355-364). -/
structure CommitFileRecord where
  user : String
  date : ℤ
  filename : String
  total_changes : ℕ
  additions : ℕ
  deletions : ℕ
  status : String
  url : String
deriving DecidableEq, Repr, Inhabited

/-- The per-file filter of `_fetch_commits` (git_analyzer.py line 354):
a changed file becomes a record exactly when its path starts with the
directory, ends with `.py`, and its status is not `removed`. -/
def fileRecord (username : String) (date : ℤ) (htmlUrl : String) (directory : String)
    (f : ChangedFile) : Option CommitFileRecord :=
  if pyStartsWith f.filename directory = true ∧ pyEndsWith f.filename ".py" = true ∧
      f.status ≠ "removed" then
    some { user := username, date := date, filename := f.filename,
           total_changes := f.changes, additions := f.additions,
           deletions := f.deletions, status := f.status, url := htmlUrl }
  else none

/-- `_fetch_commits` (git_analyzer.py lines 304-368) applied to the
commits that pagination delivers, concatenated across pages.  `nameFilter`
is true exactly when the request carried no `author` parameter, in which
case each commit's author display name must equal the username exactly.
The author date is shifted by the fixed +9h offset, the inclusive window
is applied, and each changed file passes through `fileRecord`. -/
def fetchCommits (commits : List CommitInfo) (nameFilter : Bool) (username : String)
    (directory : String) (startFilter endFilter : ℤ) : List CommitFileRecord :=
  commits.foldl
    (fun acc commit =>
      if nameFilter ∧ commit.authorName ≠ username then acc
      else
        let date := commit.dateUtc + 9 * 3600
        if startFilter ≤ date ∧ date ≤ endFilter then
          acc ++ commit.files.filterMap (fileRecord username date commit.htmlUrl directory)
        else acc)
    []

/-- The record-producing part of `analyze_commits` (git_analyzer.py lines
184-217): `github_directory` is bound to the empty string; the week label
(with a trailing slash appended when missing) replaces an empty
`directory` argument; pass 1 asks the API for commits whose author login
is the username (modelled by filtering on `authorLogin`), and when it
yields nothing pass 2 re-runs over all commits with the name filter
instead.  The search itself is always scoped by `github_directory`. -/
def analyzeCommitsRecords (weekLabel : String) (directory : String) (username : String)
    (commits : List CommitInfo) (startFilter endFilter : ℤ) : List CommitFileRecord :=
  let github_directory := ""
  let directory :=
    if directory = "" then
      (if weekLabel ≠ "" ∧ pyEndsWith weekLabel "/" = false then weekLabel ++ "/"
       else weekLabel)
    else directory
  let pass1 :=
    fetchCommits (commits.filter (fun c => c.authorLogin == username)) false username
      github_directory startFilter endFilter
  if pass1 ≠ [] then pass1
  else fetchCommits commits true username github_directory startFilter endFilter

/-- C4: inside a commit kept by the window filter, a changed file is
turned into a CommitFileRecord iff its path starts with the configured
directory, ends with `.py`, and its status is not `removed`; a kept commit
contributes exactly the records of its surviving files. -/
theorem fetch_commits_file_filter :
    (∀ (username : String) (date : ℤ) (htmlUrl directory : String) (f : ChangedFile),
      (fileRecord username date htmlUrl directory f).isSome = true ↔
        (pyStartsWith f.filename directory = true ∧ pyEndsWith f.filename ".py" = true ∧
          f.status ≠ "removed")) ∧
    (∀ (commit : CommitInfo) (username directory : String) (startFilter endFilter : ℤ),
      startFilter ≤ commit.dateUtc + 9 * 3600 → commit.dateUtc + 9 * 3600 ≤ endFilter →
      fetchCommits [commit] false username directory startFilter endFilter =
        commit.files.filterMap
          (fileRecord username (commit.dateUtc + 9 * 3600) commit.htmlUrl directory)) := by
  constructor
  · intro username date htmlUrl directory f
    by_cases h : pyStartsWith f.filename directory = true ∧ pyEndsWith f.filename ".py" = true ∧
        f.status ≠ "removed"
    · simp [fileRecord, h]
    · simp [fileRecord, h]
  · intro commit username directory startFilter endFilter h1 h2
    unfold fetchCommits
    rw [List.foldl_cons, List.foldl_nil]
    dsimp only
    rw [if_neg (by simp), if_pos ⟨h1, h2⟩, List.nil_append]

/-- Witness for C4: under the prefix `week03/` the changed file
`week03/src/app.py` with status `modified` is kept, the same path with
status `removed` is dropped, `week03/app.txt` is dropped with either
status, and a kept commit contributes exactly its surviving files. -/
theorem fetch_commits_file_filter_witness :
    (fileRecord "u" 0 "h" "week03/" ⟨"week03/src/app.py", "modified", 3, 2, 1⟩).isSome =
        true ∧
      (fileRecord "u" 0 "h" "week03/" ⟨"week03/src/app.py", "removed", 3, 2, 1⟩).isSome ≠
        true ∧
      (fileRecord "u" 0 "h" "week03/" ⟨"week03/app.txt", "modified", 3, 2, 1⟩).isSome ≠
        true ∧
      (fileRecord "u" 0 "h" "week03/" ⟨"week03/app.txt", "removed", 3, 2, 1⟩).isSome ≠
        true ∧
      fetchCommits [⟨"u", "U", 0, "h", [⟨"week03/src/app.py", "modified", 3, 2, 1⟩]⟩]
          false "u" "week03/" 0 100000 =
        [⟨"u", 32400, "week03/src/app.py", 3, 2, 1, "modified", "h"⟩] :=
  ⟨(fetch_commits_file_filter.1 "u" 0 "h" "week03/"
      ⟨"week03/src/app.py", "modified", 3, 2, 1⟩).mpr (by decide),
   fun h =>
    (by decide :
        ¬ (pyStartsWith "week03/src/app.py" "week03/" = true ∧
            pyEndsWith "week03/src/app.py" ".py" = true ∧
            ("removed" : String) ≠ "removed"))
      ((fetch_commits_file_filter.1 "u" 0 "h" "week03/"
        ⟨"week03/src/app.py", "removed", 3, 2, 1⟩).mp h),
   fun h =>
    (by decide :
        ¬ (pyStartsWith "week03/app.txt" "week03/" = true ∧
            pyEndsWith "week03/app.txt" ".py" = true ∧
            ("modified" : String) ≠ "removed"))
      ((fetch_commits_file_filter.1 "u" 0 "h" "week03/"
        ⟨"week03/app.txt", "modified", 3, 2, 1⟩).mp h),
   fun h =>
    (by decide :
        ¬ (pyStartsWith "week03/app.txt" "week03/" = true ∧
            pyEndsWith "week03/app.txt" ".py" = true ∧
            ("removed" : String) ≠ "removed"))
      ((fetch_commits_file_filter.1 "u" 0 "h" "week03/"
        ⟨"week03/app.txt", "removed", 3, 2, 1⟩).mp h),
   (fetch_commits_file_filter.2 ⟨"u", "U", 0, "h", [⟨"week03/src/app.py", "modified", 3, 2, 1⟩]⟩
      "u" "week03/" 0 100000 (by norm_num) (by norm_num)).trans (by decide)⟩

/-- C3 counterexample: with the week label `week01` and an empty
`directory` argument, a changed file `src/app.py` that does not lie under
a `week01/` directory still produces a CommitFileRecord, because the
search is scoped by `github_directory = ""`, not by the week label. -/
theorem analyze_commits_week_label_scope_cex :
    (analyzeCommitsRecords "week01" "" "student"
        [⟨"student", "Student", 1000, "h", [⟨"src/app.py", "modified", 3, 2, 1⟩]⟩]
        0 100000).map (fun r => r.filename) = ["src/app.py"] ∧
      pyStartsWith "src/app.py" "week01/" = false := by
  constructor
  · decide
  · decide

/-- C3 as amended: when `directory` is empty `analyze_commits` stores the
week label (slash-appended) in a local variable but scopes the search with
the separate `github_directory` variable, which always holds the empty
string, so the records do not depend on the week label or on the
`directory` argument at all. -/
theorem analyze_commits_search_unscoped :
    ∀ (weekLabel directory username : String) (commits : List CommitInfo)
      (startFilter endFilter : ℤ),
      analyzeCommitsRecords weekLabel directory username commits startFilter endFilter =
        analyzeCommitsRecords "" "" username commits startFilter endFilter := by
  intro weekLabel directory username commits startFilter endFilter
  rfl

/-! ### Exclude-first-commit (git_analyzer.py lines 221-224) -/

/-- pandas `df.groupby("filename")["date"].rank(method="first")` evaluated
at row `i`: one plus the number of rows of the same filename that precede
row `i` in the (date, original position) lexicographic order — ascending
rank over dates, ties resolved in order of appearance. -/
def rankFirst (l : List CommitFileRecord) (i : ℕ) : ℕ :=
  1 + ((List.range l.length).filter (fun j =>
      decide ((l.getD j default).filename = (l.getD i default).filename ∧
        ((l.getD j default).date < (l.getD i default).date ∨
          ((l.getD j default).date = (l.getD i default).date ∧ j < i))))).length

/-- `df.groupby("filename")["filename"].transform("count")`: how many rows
share the filename. -/
def filenameCount (l : List CommitFileRecord) (f : String) : ℕ :=
  (l.filter (fun r => r.filename == f)).length

/-- git_analyzer.py lines 221-224: with `exclude_first_commit` enabled the
rows with `rank == 1` whose filename has more than one row are dropped and
every other row is kept, in order. -/
def excludeFirstCommit (l : List CommitFileRecord) : List CommitFileRecord :=
  ((List.range l.length).filter (fun i =>
      decide (¬ (rankFirst l i = 1 ∧
        1 < filenameCount l (l.getD i default).filename)))).map
    (fun i => l.getD i default)

/-- Stated from the claim, as the specification side of C6: drop the first
row attaining the minimum date (the chronologically earliest row, a tie on
the date resolved in favour of the earliest position). -/
def dropChronologicallyFirst (g : List CommitFileRecord) : List CommitFileRecord :=
  match (g.map (fun r => r.date)).min? with
  | none => g
  | some m => g.eraseP (fun r => r.date == m)

theorem filter_eq_map_filter_range {α : Type} [Inhabited α] (l : List α) (p : α → Bool) :
    l.filter p =
      ((List.range l.length).filter (fun i => p (l.getD i default))).map
        (fun i => l.getD i default) := by
  induction l with
  | nil => rfl
  | cons a t ih =>
    simp only [List.length_cons, List.range_succ_eq_map, List.filter_cons,
      List.getD_cons_zero, List.filter_map, List.map_map, Function.comp_def,
      List.getD_cons_succ]
    by_cases hpa : p a <;> simp [hpa, ih]

theorem min?_int_spec (xs : List ℤ) (hne : xs ≠ []) :
    ∃ m, xs.min? = some m ∧ m ∈ xs ∧ ∀ x ∈ xs, m ≤ x := by
  cases h : xs.min? with
  | none => exact absurd (List.min?_eq_none_iff.mp h) hne
  | some m =>
    refine ⟨m, rfl, List.min?_mem (fun a b => min_choice a b) h, ?_⟩
    exact (List.le_min?_iff (fun a b c => le_min_iff) h).mp le_rfl

/-- Over a strictly ascending list of positions, removing the positions
that are lexicographically minimal in (value, position) removes exactly
the first position attaining the minimum value. -/
theorem filter_not_lexmin (D : ℕ → ℤ) (m : ℤ) :
    ∀ (I : List ℕ), I.Pairwise (· < ·) → m ∈ I.map D → (∀ j ∈ I, m ≤ D j) →
      I.filter (fun i => decide (¬ ∀ j ∈ I, ¬ (D j < D i ∨ (D j = D i ∧ j < i)))) =
        I.eraseP (fun i => D i == m) := by
  intro I
  induction I with
  | nil => intro _ h _; simp at h
  | cons i I' ih =>
    intro hpw hmem hlb
    have hlt : ∀ j ∈ I', i < j := (List.pairwise_cons.mp hpw).1
    have hpw' := (List.pairwise_cons.mp hpw).2
    by_cases hDi : D i = m
    · -- the head is the lexicographic minimum: dropped left, erased right
      have hmin_i : ∀ j ∈ i :: I', ¬ (D j < D i ∨ (D j = D i ∧ j < i)) := by
        intro j hj
        have hmj := hlb j hj
        rcases List.mem_cons.mp hj with rfl | hj'
        · omega
        · have hij := hlt j hj'
          omega
      rw [List.filter_cons_of_neg (by simp only [decide_eq_true_eq]; exact not_not_intro hmin_i),
        List.eraseP_cons_of_pos (by simp [hDi])]
      apply List.filter_eq_self.mpr
      intro j hj
      apply decide_eq_true
      intro hall
      have hlex := hall i (List.mem_cons_self i I')
      have hmj := hlb j (List.mem_cons_of_mem i hj)
      have hij := hlt j hj
      rw [hDi] at hlex
      omega
    · -- the head survives; the minimum sits in the tail
      have hm' : m ∈ I'.map D := by
        rcases List.mem_map.mp hmem with ⟨j, hj, hDj⟩
        rcases List.mem_cons.mp hj with rfl | hj'
        · exact absurd hDj hDi
        · exact List.mem_map.mpr ⟨j, hj', hDj⟩
      obtain ⟨jm, hjm, hDjm⟩ := List.mem_map.mp hm'
      have hmlt : m < D i :=
        lt_of_le_of_ne (hlb i (List.mem_cons_self i I')) (fun h => hDi h.symm)
      have hkeep : ¬ ∀ j ∈ i :: I', ¬ (D j < D i ∨ (D j = D i ∧ j < i)) := by
        intro hall
        exact hall jm (List.mem_cons_of_mem i hjm) (Or.inl (by omega))
      rw [List.filter_cons_of_pos (by simpa using hkeep),
        List.eraseP_cons_of_neg (by simp [hDi])]
      congr 1
      have hcg : List.filter
          (fun j => decide (¬ ∀ k ∈ i :: I', ¬ (D k < D j ∨ (D k = D j ∧ k < j)))) I' =
          List.filter
          (fun j => decide (¬ ∀ k ∈ I', ¬ (D k < D j ∨ (D k = D j ∧ k < j)))) I' := by
        apply List.filter_congr
        intro j hj
        apply decide_eq_decide.mpr
        constructor
        · intro hncons hI'
          apply hncons
          intro k hk
          rcases List.mem_cons.mp hk with rfl | hk'
          · -- the head cannot lexicographically precede j: its value is above m
            have hmjm := hI' jm hjm
            have hmj := hlb j (List.mem_cons_of_mem _ hj)
            have hij := hlt j hj
            rw [hDjm] at hmjm
            omega
          · exact hI' k hk'
        · intro hnI' hcons
          exact hnI' (fun k hk => hcons k (List.mem_cons_of_mem i hk))
      rw [hcg]
      exact ih hpw' hm' (fun j hj => hlb j (List.mem_cons_of_mem i hj))

/-- C6: with the exclude-first-commit option, for every filename with more
than one surviving record exactly the chronologically earliest record (a
date tie resolved by the stable first-occurrence ranking) is dropped and
the rest are kept, while a filename with exactly one record keeps it. -/
theorem exclude_first_commit_drops_earliest :
    ∀ (l : List CommitFileRecord) (f : String),
      (filenameCount l f = 1 →
        (excludeFirstCommit l).filter (fun r => r.filename == f) =
          l.filter (fun r => r.filename == f)) ∧
      (1 < filenameCount l f →
        (excludeFirstCommit l).filter (fun r => r.filename == f) =
          dropChronologicallyFirst (l.filter (fun r => r.filename == f))) := by
  intro l f
  have hfilter := filter_eq_map_filter_range l (fun r => r.filename == f)
  have hLHS : (excludeFirstCommit l).filter (fun r => r.filename == f) =
      (((List.range l.length).filter (fun i => (l.getD i default).filename == f)).filter
        (fun i => decide (¬ (rankFirst l i = 1 ∧
          1 < filenameCount l (l.getD i default).filename)))).map
        (fun i => l.getD i default) := by
    rw [excludeFirstCommit, List.filter_map, List.filter_filter, List.filter_filter]
    congr 1
    apply List.filter_congr
    intro i _
    simp [Bool.and_comm]
  have hImem : ∀ i ∈ (List.range l.length).filter
      (fun i => (l.getD i default).filename == f),
      i < l.length ∧ (l.getD i default).filename = f := by
    intro i hi
    have h := List.mem_filter.mp hi
    exact ⟨List.mem_range.mp h.1, by simpa using h.2⟩
  have hcnt : filenameCount l f = ((List.range l.length).filter
      (fun i => (l.getD i default).filename == f)).length := by
    rw [filenameCount, hfilter, List.length_map]
  have hrank1 : ∀ i ∈ (List.range l.length).filter
      (fun i => (l.getD i default).filename == f),
      (rankFirst l i = 1 ↔
        ∀ j ∈ (List.range l.length).filter (fun i => (l.getD i default).filename == f),
          ¬ ((l.getD j default).date < (l.getD i default).date ∨
            ((l.getD j default).date = (l.getD i default).date ∧ j < i))) := by
    intro i hi
    rw [rankFirst]
    constructor
    · intro h1 j hj hlex
      have hnil : ((List.range l.length).filter (fun j =>
          decide ((l.getD j default).filename = (l.getD i default).filename ∧
            ((l.getD j default).date < (l.getD i default).date ∨
              ((l.getD j default).date = (l.getD i default).date ∧ j < i))))) = [] :=
        List.length_eq_zero.mp (by omega)
      have hj' := List.filter_eq_nil_iff.mp hnil j
        (List.mem_range.mpr (hImem j hj).1)
      apply hj'
      apply decide_eq_true
      exact ⟨by rw [(hImem j hj).2, (hImem i hi).2], hlex⟩
    · intro hall
      have hnil : ((List.range l.length).filter (fun j =>
          decide ((l.getD j default).filename = (l.getD i default).filename ∧
            ((l.getD j default).date < (l.getD i default).date ∨
              ((l.getD j default).date = (l.getD i default).date ∧ j < i))))) = [] := by
        apply List.filter_eq_nil_iff.mpr
        intro j hjr hpred
        have hp := of_decide_eq_true hpred
        have hjIf : j ∈ (List.range l.length).filter
            (fun i => (l.getD i default).filename == f) := by
          apply List.mem_filter.mpr
          refine ⟨hjr, ?_⟩
          have : (l.getD j default).filename = f := by
            rw [hp.1, (hImem i hi).2]
          simpa using this
        exact hall j hjIf hp.2
      rw [hnil]
      rfl
  constructor
  · -- a filename with exactly one record is unaffected
    intro h1
    rw [hLHS, hfilter]
    congr 1
    apply List.filter_eq_self.mpr
    intro i hi
    apply decide_eq_true
    intro hcontra
    have h2 := hcontra.2
    rw [(hImem i hi).2, h1] at h2
    omega
  · -- a filename with several records loses exactly the earliest one
    intro hgt
    rw [hLHS, hfilter]
    have hne : ((List.range l.length).filter
        (fun i => (l.getD i default).filename == f)).map
        (fun i => (l.getD i default).date) ≠ [] := by
      intro h
      have := congrArg List.length h
      rw [List.length_map, List.length_nil] at this
      rw [hcnt, this] at hgt
      omega
    obtain ⟨m, hm, hmmem, hmlb⟩ := min?_int_spec _ hne
    unfold dropChronologicallyFirst
    have hmm : ((((List.range l.length).filter
        (fun i => (l.getD i default).filename == f)).map
        (fun i => l.getD i default)).map (fun r => r.date)).min? = some m := by
      rw [List.map_map]
      exact hm
    rw [hmm]
    dsimp only
    rw [List.eraseP_map]
    congr 1
    have hcg : ((List.range l.length).filter
        (fun i => (l.getD i default).filename == f)).filter
        (fun i => decide (¬ (rankFirst l i = 1 ∧
          1 < filenameCount l (l.getD i default).filename))) =
        ((List.range l.length).filter
        (fun i => (l.getD i default).filename == f)).filter
        (fun i => decide (¬ ∀ j ∈ (List.range l.length).filter
          (fun i => (l.getD i default).filename == f),
          ¬ ((l.getD j default).date < (l.getD i default).date ∨
            ((l.getD j default).date = (l.getD i default).date ∧ j < i)))) := by
      apply List.filter_congr
      intro i hi
      apply decide_eq_decide.mpr
      constructor
      · intro hne' hmin
        apply hne'
        refine ⟨(hrank1 i hi).mpr hmin, ?_⟩
        rw [(hImem i hi).2]
        exact hcnt ▸ hgt
      · intro hnmin hboth
        exact hnmin ((hrank1 i hi).mp hboth.1)
    rw [hcg]
    exact filter_not_lexmin (fun i => (l.getD i default).date) m _
      ((List.pairwise_lt_range l.length).filter _) hmmem
      (fun j hj => hmlb _ (List.mem_map_of_mem _ hj))

/-- Witness for C6 on the claim's example: three records for file `A` at
times 1 < 2 < 3 and one record for file `B` at time 4; excluding first
commits leaves the records of `A` at times 2 and 3 and keeps the single
record of `B`. -/
theorem exclude_first_commit_drops_earliest_witness :
    (excludeFirstCommit
        [⟨"u", 1, "A", 1, 1, 0, "modified", "h"⟩, ⟨"u", 2, "A", 1, 1, 0, "modified", "h"⟩,
         ⟨"u", 3, "A", 1, 1, 0, "modified", "h"⟩, ⟨"u", 4, "B", 1, 1, 0, "modified", "h"⟩]).filter
        (fun r => r.filename == "A") =
      dropChronologicallyFirst
        ([⟨"u", 1, "A", 1, 1, 0, "modified", "h"⟩, ⟨"u", 2, "A", 1, 1, 0, "modified", "h"⟩,
          ⟨"u", 3, "A", 1, 1, 0, "modified", "h"⟩,
          ⟨"u", 4, "B", 1, 1, 0, "modified", "h"⟩].filter (fun r => r.filename == "A")) ∧
    (excludeFirstCommit
        [⟨"u", 1, "A", 1, 1, 0, "modified", "h"⟩, ⟨"u", 2, "A", 1, 1, 0, "modified", "h"⟩,
         ⟨"u", 3, "A", 1, 1, 0, "modified", "h"⟩, ⟨"u", 4, "B", 1, 1, 0, "modified", "h"⟩]).filter
        (fun r => r.filename == "B") =
      [⟨"u", 1, "A", 1, 1, 0, "modified", "h"⟩, ⟨"u", 2, "A", 1, 1, 0, "modified", "h"⟩,
       ⟨"u", 3, "A", 1, 1, 0, "modified", "h"⟩,
       ⟨"u", 4, "B", 1, 1, 0, "modified", "h"⟩].filter (fun r => r.filename == "B") ∧
    excludeFirstCommit
        [⟨"u", 1, "A", 1, 1, 0, "modified", "h"⟩, ⟨"u", 2, "A", 1, 1, 0, "modified", "h"⟩,
         ⟨"u", 3, "A", 1, 1, 0, "modified", "h"⟩, ⟨"u", 4, "B", 1, 1, 0, "modified", "h"⟩] =
      [⟨"u", 2, "A", 1, 1, 0, "modified", "h"⟩, ⟨"u", 3, "A", 1, 1, 0, "modified", "h"⟩,
       ⟨"u", 4, "B", 1, 1, 0, "modified", "h"⟩] :=
  ⟨(exclude_first_commit_drops_earliest
      [⟨"u", 1, "A", 1, 1, 0, "modified", "h"⟩, ⟨"u", 2, "A", 1, 1, 0, "modified", "h"⟩,
       ⟨"u", 3, "A", 1, 1, 0, "modified", "h"⟩, ⟨"u", 4, "B", 1, 1, 0, "modified", "h"⟩]
      "A").2 (by decide),
   (exclude_first_commit_drops_earliest
      [⟨"u", 1, "A", 1, 1, 0, "modified", "h"⟩, ⟨"u", 2, "A", 1, 1, 0, "modified", "h"⟩,
       ⟨"u", 3, "A", 1, 1, 0, "modified", "h"⟩, ⟨"u", 4, "B", 1, 1, 0, "modified", "h"⟩]
      "B").1 (by decide),
   by decide⟩

/-! ### Outlier classifier z-scores (html_parser.py lines 81-130) -/

/-- `np.mean` of a float column modelled over the rationals. -/
def npMean (xs : List ℚ) : ℚ := xs.sum / xs.length

/-- The population variance, `np.std(xs) ** 2` (numpy defaults to ddof 0). -/
def npVar (xs : List ℚ) : ℚ := (xs.map (fun x => (x - npMean xs) ^ 2)).sum / xs.length

/-- `np.std`: the population standard deviation; the square root lives in ℝ. -/
noncomputable def npStd (xs : List ℚ) : ℝ := Real.sqrt (npVar xs)

open Classical in
/-- The z-score pattern of `save_dataframe_as_html` (html_parser.py lines
81-88, 94-102 and 118-126): when the standard deviation is nonzero every
value is centred and scaled by it, otherwise `np.zeros` makes every
z-score 0 — the division is guarded and never performed with a zero
standard deviation. -/
noncomputable def zScores (xs : List ℚ) : List ℝ :=
  if npStd xs ≠ 0 then
    xs.map (fun x => ((x : ℝ) - (npMean xs : ℝ)) / npStd xs)
  else List.replicate xs.length 0

/-- The `총 커밋 수` z-scores of the table (html_parser.py lines 81-88). -/
noncomputable def zScoresCommit (t : List ReportRow) : List ℝ :=
  zScores (t.map (fun r => r.commitCount))

/-- `commit_count_is_outlier`: z-score below -1.0 (html_parser.py line 89). -/
noncomputable def commitCountIsOutlier (t : List ReportRow) : List Prop :=
  (zScoresCommit t).map (fun z => z < -1)

/-- The `평균 수정 라인 수` z-scores of the table (html_parser.py lines 94-102). -/
noncomputable def zScoresChanges (t : List ReportRow) : List ℝ :=
  zScores (t.map (fun r => r.meanChanges))

/-- `avg_changes_is_outlier`: z-score above 2.0 (html_parser.py line 103). -/
noncomputable def avgChangesIsOutlier (t : List ReportRow) : List Prop :=
  (zScoresChanges t).map (fun z => z > 2)

/-- The `코딩 시간` z-scores of the table (html_parser.py lines 118-126). -/
noncomputable def zScoresMinutes (t : List ReportRow) : List ℝ :=
  zScores (t.map (fun r => r.codingMinutes))

/-- `coding_minutes_is_outlier`: z-score below -1.0 (html_parser.py line 127). -/
noncomputable def codingMinutesIsOutlier (t : List ReportRow) : List Prop :=
  (zScoresMinutes t).map (fun z => z < -1)

theorem zScores_of_constant (xs : List ℚ) (a : ℚ) (h : ∀ x ∈ xs, x = a) :
    zScores xs = List.replicate xs.length 0 := by
  by_cases hne : xs = []
  · subst hne
    simp [zScores, npStd, npVar, npMean]
  · have hlen : (xs.length : ℚ) ≠ 0 :=
      Nat.cast_ne_zero.mpr (fun h0 => hne (List.eq_nil_of_length_eq_zero h0))
    have hmean : npMean xs = a := by
      have hsum : xs.sum = xs.length * a := by
        conv => lhs; rw [List.eq_replicate_of_mem h]
        rw [List.sum_replicate, nsmul_eq_mul]
      rw [npMean, hsum, mul_comm, mul_div_assoc, div_self hlen, mul_one]
    have hvar : npVar xs = 0 := by
      have hmap : xs.map (fun x => (x - npMean xs) ^ 2) =
          List.replicate (xs.map (fun x => (x - npMean xs) ^ 2)).length 0 := by
        apply List.eq_replicate_of_mem
        intro b hb
        obtain ⟨x, hxm, rfl⟩ := List.mem_map.mp hb
        rw [h x hxm, hmean]
        ring
      rw [npVar, hmap, List.length_map, List.sum_replicate]
      simp
    rw [zScores, if_neg]
    exact not_not_intro (by rw [npStd, hvar]; simp)

/-- C7: for each of the three z-scored metrics (total commit count, mean
changed lines, coding minutes), a metric that is identical across every
row of the table gets z-score 0 on every row, no row is flagged as an
outlier on that metric, and the guarded computation is total. -/
theorem zscore_constant_metric :
    ∀ t : List ReportRow, t ≠ [] →
      ((∀ r ∈ t, ∀ r' ∈ t, r.commitCount = r'.commitCount) →
        zScoresCommit t = List.replicate t.length 0 ∧
          ∀ p ∈ commitCountIsOutlier t, ¬ p) ∧
      ((∀ r ∈ t, ∀ r' ∈ t, r.meanChanges = r'.meanChanges) →
        zScoresChanges t = List.replicate t.length 0 ∧
          ∀ p ∈ avgChangesIsOutlier t, ¬ p) ∧
      ((∀ r ∈ t, ∀ r' ∈ t, r.codingMinutes = r'.codingMinutes) →
        zScoresMinutes t = List.replicate t.length 0 ∧
          ∀ p ∈ codingMinutesIsOutlier t, ¬ p) := by
  intro t hne
  obtain ⟨r0, t', rfl⟩ : ∃ r0 t', t = r0 :: t' := by
    cases t with
    | nil => exact absurd rfl hne
    | cons a l => exact ⟨a, l, rfl⟩
  refine ⟨fun h => ?_, fun h => ?_, fun h => ?_⟩
  · have hz : zScoresCommit (r0 :: t') = List.replicate (r0 :: t').length 0 := by
      rw [zScoresCommit, zScores_of_constant _ r0.commitCount, List.length_map]
      intro x hx
      obtain ⟨r, hr, rfl⟩ := List.mem_map.mp hx
      exact h r hr r0 (List.mem_cons_self r0 t')
    refine ⟨hz, ?_⟩
    intro p hp
    rw [commitCountIsOutlier, hz, List.map_replicate] at hp
    rw [List.eq_of_mem_replicate hp]
    norm_num
  · have hz : zScoresChanges (r0 :: t') = List.replicate (r0 :: t').length 0 := by
      rw [zScoresChanges, zScores_of_constant _ r0.meanChanges, List.length_map]
      intro x hx
      obtain ⟨r, hr, rfl⟩ := List.mem_map.mp hx
      exact h r hr r0 (List.mem_cons_self r0 t')
    refine ⟨hz, ?_⟩
    intro p hp
    rw [avgChangesIsOutlier, hz, List.map_replicate] at hp
    rw [List.eq_of_mem_replicate hp]
    norm_num
  · have hz : zScoresMinutes (r0 :: t') = List.replicate (r0 :: t').length 0 := by
      rw [zScoresMinutes, zScores_of_constant _ r0.codingMinutes, List.length_map]
      intro x hx
      obtain ⟨r, hr, rfl⟩ := List.mem_map.mp hx
      exact h r hr r0 (List.mem_cons_self r0 t')
    refine ⟨hz, ?_⟩
    intro p hp
    rw [codingMinutesIsOutlier, hz, List.map_replicate] at hp
    rw [List.eq_of_mem_replicate hp]
    norm_num

/-- Witness for C7: a two-row table with a constant commit count gets zero
commit-count z-scores. -/
theorem zscore_constant_metric_witness :
    zScoresCommit [⟨3, 5, 7, none, "success", 0⟩, ⟨3, 6, 8, some 90, "success", 1⟩] =
      List.replicate 2 0 :=
  ((zscore_constant_metric
      [⟨3, 5, 7, none, "success", 0⟩, ⟨3, 6, 8, some 90, "success", 1⟩]
      (by decide)).1 (by decide)).1

/-! ### Similarity scorer (`format_python_code`, `calculate_similarity`)

`difflib.SequenceMatcher` is embedded whole: the `b2j` table with the
autojunk heuristic, the dynamic-programming main loop of
`find_longest_match`, its four extension loops, and the recursion of
`get_matching_blocks` (whose fuel dominates the recursion depth, which
difflib bounds by the `a`-window shrinking at every split).  Floats are
exact rationals; `round(x, 2)` is round-half-to-even at two decimals. -/

/-- difflib's autojunk heuristic: for a second sequence of at least 200
elements, the characters occurring strictly more than `n // 100 + 1` times
are junk and are dropped from `b2j`; shorter sequences have no junk. -/
def autojunkOf (b : List Char) : Char → Bool :=
  if 200 ≤ b.length then fun c => b.length / 100 + 1 < b.count c else fun _ => false

/-- The `b2j` positions of character `c` in `b` visited by the inner loop
of `find_longest_match`: every index of a non-junk occurrence, ascending,
restricted to the window `[blo, bhi)` (indices below `blo` are skipped and
the loop breaks at `bhi`). -/
def b2jWindow (junk : Char → Bool) (b : List Char) (c : Char) (blo bhi : ℕ) : List ℕ :=
  (List.range b.length).filter (fun j =>
    decide (blo ≤ j) && decide (j < bhi) && (b.getD j ' ' == c) && !junk (b.getD j ' '))

/-- The running state of `find_longest_match`: the `j2len` dictionary (a
total function, with absent keys at 0) and the best block so far. -/
structure FlmState where
  j2len : ℕ → ℕ
  besti : ℕ
  bestj : ℕ
  bestsize : ℕ

/-- The body of the inner loop of `find_longest_match` at row `i`:
`k = j2len.get(j - 1, 0) + 1` is read from the previous row, written into
the new row at `j`, and the best block updated when strictly longer. -/
def innerStep (old : ℕ → ℕ) (i : ℕ) (acc : (ℕ → ℕ) × ℕ × ℕ × ℕ) (j : ℕ) :
    (ℕ → ℕ) × ℕ × ℕ × ℕ :=
  let k := (if j = 0 then 0 else old (j - 1)) + 1
  let nj2len := fun j' => if j' = j then k else acc.1 j'
  if acc.2.2.2 < k then (nj2len, i + 1 - k, j + 1 - k, k)
  else (nj2len, acc.2)

/-- One iteration of the outer loop of `find_longest_match`: start from a
fresh `newj2len` and fold the matching positions in ascending order. -/
def flmStep (junk : Char → Bool) (a b : List Char) (blo bhi : ℕ)
    (st : FlmState) (i : ℕ) : FlmState :=
  let inner := (b2jWindow junk b (a.getD i ' ') blo bhi).foldl (innerStep st.j2len i)
    ((fun _ => 0), st.besti, st.bestj, st.bestsize)
  ⟨inner.1, inner.2.1, inner.2.2.1, inner.2.2.2⟩

/-- A left extension loop of `find_longest_match`: while the characters
just before the block are equal and of junkness `wantJunk`, grow the block
leftwards.  The fuel dominates the step count (`besti` suffices, as each
step decrements it). -/
def extLeft (junk : Char → Bool) (a b : List Char) (alo blo : ℕ) (wantJunk : Bool) :
    ℕ → ℕ × ℕ × ℕ → ℕ × ℕ × ℕ
  | 0, st => st
  | fuel + 1, (bi, bj, bs) =>
    if alo < bi ∧ blo < bj ∧ junk (b.getD (bj - 1) ' ') = wantJunk ∧
        a.getD (bi - 1) ' ' = b.getD (bj - 1) ' ' then
      extLeft junk a b alo blo wantJunk fuel (bi - 1, bj - 1, bs + 1)
    else (bi, bj, bs)

/-- A right extension loop of `find_longest_match`: while the characters
just after the block are equal and of junkness `wantJunk`, grow the block
rightwards.  The fuel dominates the step count (`ahi` suffices). -/
def extRight (junk : Char → Bool) (a b : List Char) (ahi bhi : ℕ) (wantJunk : Bool) :
    ℕ → ℕ × ℕ × ℕ → ℕ × ℕ × ℕ
  | 0, st => st
  | fuel + 1, (bi, bj, bs) =>
    if bi + bs < ahi ∧ bj + bs < bhi ∧ junk (b.getD (bj + bs) ' ') = wantJunk ∧
        a.getD (bi + bs) ' ' = b.getD (bj + bs) ' ' then
      extRight junk a b ahi bhi wantJunk fuel (bi, bj, bs + 1)
    else (bi, bj, bs)

/-- `find_longest_match` over `[alo, ahi) × [blo, bhi)`: the main loop
(best initialised to `(alo, blo, 0)`), then the four extension loops in
difflib's order: non-junk left, non-junk right, junk left, junk right. -/
def findLongestMatch (junk : Char → Bool) (a b : List Char) (alo ahi blo bhi : ℕ) :
    ℕ × ℕ × ℕ :=
  let fin := (List.range' alo (ahi - alo)).foldl (flmStep junk a b blo bhi)
    ⟨fun _ => 0, alo, blo, 0⟩
  let st1 := extLeft junk a b alo blo false fin.besti (fin.besti, fin.bestj, fin.bestsize)
  let st2 := extRight junk a b ahi bhi false ahi st1
  let st3 := extLeft junk a b alo blo true st2.1 st2
  let st4 := extRight junk a b ahi bhi true ahi st3
  st4

/-- The total number of matched elements over `get_matching_blocks`: the
queue recursion of difflib, pushing the two sub-windows of every nonempty
block; the sizes of all blocks are summed. -/
def matchingTotal (junk : Char → Bool) (a b : List Char) :
    ℕ → ℕ → ℕ → ℕ → ℕ → ℕ
  | 0, _, _, _, _ => 0
  | fuel + 1, alo, ahi, blo, bhi =>
    let m := findLongestMatch junk a b alo ahi blo bhi
    if m.2.2 = 0 then 0
    else m.2.2 + matchingTotal junk a b fuel alo m.1 blo m.2.1 +
      matchingTotal junk a b fuel (m.1 + m.2.2) ahi (m.2.1 + m.2.2) bhi

/-- `SequenceMatcher(None, a, b).ratio()` as an exact rational:
`2.0 * matches / (len(a) + len(b))`, and 1.0 for two empty sequences. -/
def sequenceMatcherRatio (a b : List Char) : ℚ :=
  if a.length + b.length = 0 then 1
  else ((2 * matchingTotal (autojunkOf b) a b (a.length + b.length)
      0 a.length 0 b.length : ℕ) : ℚ) / ((a.length + b.length : ℕ) : ℚ)

/-- Python `round` to an integer: round half to even on the exact value. -/
def roundHalfEven (q : ℚ) : ℤ :=
  let f := q.num / (q.den : ℤ)
  let r := q.num - f * (q.den : ℤ)
  if 2 * r < (q.den : ℤ) then f
  else if (q.den : ℤ) < 2 * r then f + 1
  else if f % 2 = 0 then f else f + 1

/-- Python `round(x, 2)` on the exact rational model. -/
def round2 (q : ℚ) : ℚ := ((roundHalfEven (q * 100) : ℤ) : ℚ) / 100

/-- `format_python_code` (git_analyzer.py lines 90-116): run the code
through isort then black, each best-effort — a formatter that is
unavailable or raises (`none`) leaves the string as it was. -/
def format_python_code (isortCode blackFmt : List Char → Option (List Char))
    (code : List Char) : List Char :=
  let s1 := (isortCode code).getD code
  (blackFmt s1).getD s1

/-- `calculate_similarity` (git_analyzer.py lines 119-131): format both
codes, compare them with `difflib.SequenceMatcher(None, ·, ·).ratio()`,
and return the percentage rounded to 2 decimal places. -/
def calculate_similarity (isortCode blackFmt : List Char → Option (List Char))
    (local_code remote_code : List Char) : ℚ :=
  round2 (sequenceMatcherRatio
    (format_python_code isortCode blackFmt local_code)
    (format_python_code isortCode blackFmt remote_code) * 100)

theorem roundHalfEven_intCast (z : ℤ) : roundHalfEven (z : ℚ) = z := by
  rw [roundHalfEven]
  simp [Rat.num_intCast, Rat.den_intCast]

/-- C5 counterexample: `calculate_similarity` is not symmetric.  With the
formatters unavailable (the source's own fallback path), the pair
`"ABCB"`/`"BCAB"` scores 50.0 in one order and 75.0 in the other: the
greedy longest-block selection of `SequenceMatcher` is order dependent. -/
theorem calculate_similarity_asymmetric_cex :
    calculate_similarity (fun _ => none) (fun _ => none) "ABCB".data "BCAB".data = 50 ∧
      calculate_similarity (fun _ => none) (fun _ => none) "BCAB".data "ABCB".data = 75 ∧
      calculate_similarity (fun _ => none) (fun _ => none) "ABCB".data "BCAB".data ≠
        calculate_similarity (fun _ => none) (fun _ => none) "BCAB".data "ABCB".data := by
  have e1 : "ABCB".data.length = 4 := by decide
  have e2 : "BCAB".data.length = 4 := by decide
  have hr1 : sequenceMatcherRatio "ABCB".data "BCAB".data = 1 / 2 := by
    rw [sequenceMatcherRatio, e1, e2, if_neg (by norm_num),
      show matchingTotal (autojunkOf "BCAB".data) "ABCB".data "BCAB".data (4 + 4) 0 4 0 4 = 2
        from by decide]
    norm_num
  have hr2 : sequenceMatcherRatio "BCAB".data "ABCB".data = 3 / 4 := by
    rw [sequenceMatcherRatio, e1, e2, if_neg (by norm_num),
      show matchingTotal (autojunkOf "ABCB".data) "BCAB".data "ABCB".data (4 + 4) 0 4 0 4 = 3
        from by decide]
    norm_num
  have h1 : calculate_similarity (fun _ => none) (fun _ => none) "ABCB".data "BCAB".data =
      50 := by
    rw [calculate_similarity]
    simp only [format_python_code, Option.getD_none]
    rw [hr1, round2, show (1 / 2 : ℚ) * 100 * 100 = ((5000 : ℤ) : ℚ) from by norm_num,
      roundHalfEven_intCast]
    norm_num
  have h2 : calculate_similarity (fun _ => none) (fun _ => none) "BCAB".data "ABCB".data =
      75 := by
    rw [calculate_similarity]
    simp only [format_python_code, Option.getD_none]
    rw [hr2, round2, show (3 / 4 : ℚ) * 100 * 100 = ((7500 : ℤ) : ℚ) from by norm_num,
      roundHalfEven_intCast]
    norm_num
  exact ⟨h1, h2, by rw [h1, h2]; norm_num⟩

/-! Analysis layer for the reflexivity of the matcher: on `(s, s)` the main
loop of `find_longest_match` always returns a diagonal block. -/

/-- The window-clipped length of the run of consecutive non-junk
characters ending at `j` inside `[lo, hi)`. -/
def runLen (s : List Char) (junk : Char → Bool) (lo hi : ℕ) : ℕ → ℕ
  | 0 => if lo ≤ 0 ∧ 0 < hi ∧ junk (s.getD 0 ' ') = false then 1 else 0
  | j + 1 =>
    if lo ≤ j + 1 ∧ j + 1 < hi ∧ junk (s.getD (j + 1) ' ') = false then
      runLen s junk lo hi j + 1
    else 0

/-- Row `m` of the `j2len` table of `find_longest_match` on `(s, s)` over
the window `[lo, hi)²`: the value of `j2len[j]` right after the outer-loop
iteration at `i = lo + (m - 1)`. -/
def chainAt (s : List Char) (junk : Char → Bool) (lo hi : ℕ) : ℕ → ℕ → ℕ
  | 0, _ => 0
  | m + 1, j =>
    if j < s.length ∧ lo ≤ j ∧ j < hi ∧ s.getD j ' ' = s.getD (lo + m) ' ' ∧
        junk (s.getD j ' ') = false then
      (if j = 0 then 0 else chainAt s junk lo hi m (j - 1)) + 1
    else 0

/-- The main loop of `find_longest_match` on `(s, s)` after `m` rows. -/
def flmLoop (s : List Char) (junk : Char → Bool) (lo hi : ℕ) (m : ℕ) : FlmState :=
  (List.range' lo m).foldl (flmStep junk s s lo hi) ⟨fun _ => 0, lo, lo, 0⟩

/-- The chain value `k` read by the inner loop at position `j`. -/
def kOf (old : ℕ → ℕ) (j : ℕ) : ℕ := (if j = 0 then 0 else old (j - 1)) + 1

theorem mem_b2jWindow {junk : Char → Bool} {b : List Char} {c : Char} {blo bhi j : ℕ} :
    j ∈ b2jWindow junk b c blo bhi ↔
      j < b.length ∧ blo ≤ j ∧ j < bhi ∧ b.getD j ' ' = c ∧
        junk (b.getD j ' ') = false := by
  simp only [b2jWindow, List.mem_filter, List.mem_range, Bool.and_eq_true,
    decide_eq_true_eq, beq_iff_eq, Bool.not_eq_true']
  tauto

theorem runLen_le (s : List Char) (junk : Char → Bool) (lo hi : ℕ) :
    ∀ j, runLen s junk lo hi j ≤ j + 1 - lo := by
  intro j
  induction j with
  | zero =>
    rw [runLen]
    split
    · omega
    · omega
  | succ j ih =>
    rw [runLen]
    split
    · next h => omega
    · omega

theorem runLen_eq_of_cond {s : List Char} {junk : Char → Bool} {lo hi j : ℕ}
    (h : lo ≤ j ∧ j < hi ∧ junk (s.getD j ' ') = false) :
    runLen s junk lo hi j = (if j = 0 then 0 else runLen s junk lo hi (j - 1)) + 1 := by
  cases j with
  | zero => rw [runLen, if_pos h]; rfl
  | succ j => rw [runLen, if_pos h]; simp

theorem runLen_eq_zero_of {s : List Char} {junk : Char → Bool} {lo hi j : ℕ}
    (h : ¬ (lo ≤ j ∧ j < hi ∧ junk (s.getD j ' ') = false)) :
    runLen s junk lo hi j = 0 := by
  cases j with
  | zero => rw [runLen, if_neg h]
  | succ j => rw [runLen, if_neg h]

theorem chainAt_le_runLen (s : List Char) (junk : Char → Bool) (lo hi : ℕ) :
    ∀ m j, chainAt s junk lo hi m j ≤ runLen s junk lo hi j := by
  intro m
  induction m with
  | zero => intro j; rw [chainAt]; omega
  | succ m ih =>
    intro j
    rw [chainAt]
    split
    · next h =>
      rw [runLen_eq_of_cond ⟨h.2.1, h.2.2.1, h.2.2.2.2⟩]
      by_cases hj : j = 0
      · simp [hj]
      · simp only [if_neg hj]
        exact Nat.succ_le_succ (ih (j - 1))
    · omega

theorem chainAt_le_runLen_diag (s : List Char) (junk : Char → Bool) (lo hi : ℕ) :
    ∀ m, lo + m < hi → ∀ j,
      chainAt s junk lo hi (m + 1) j ≤ runLen s junk lo hi (lo + m) := by
  intro m
  induction m with
  | zero =>
    intro hlt j
    rw [chainAt]
    split
    · next h =>
      have hjunk : junk (s.getD (lo + 0) ' ') = false := by
        rw [← h.2.2.2.1]; exact h.2.2.2.2
      have hrl : 1 ≤ runLen s junk lo hi (lo + 0) := by
        rw [runLen_eq_of_cond ⟨Nat.le_add_right lo 0, hlt, hjunk⟩]
        omega
      have hch : (if j = 0 then 0 else chainAt s junk lo hi 0 (j - 1)) = 0 := by
        split
        · rfl
        · rw [chainAt]
      rw [hch]
      omega
    · omega
  | succ m ih =>
    intro hlt j
    rw [chainAt]
    split
    · next h =>
      have hjunk : junk (s.getD (lo + (m + 1)) ' ') = false := by
        rw [← h.2.2.2.1]; exact h.2.2.2.2
      have hrl : runLen s junk lo hi (lo + (m + 1)) =
          runLen s junk lo hi (lo + m) + 1 := by
        rw [runLen_eq_of_cond ⟨Nat.le_add_right lo (m + 1), hlt, hjunk⟩,
          if_neg (by omega), show lo + (m + 1) - 1 = lo + m from by omega]
      rw [hrl]
      by_cases hj : j = 0
      · rw [if_pos hj]; omega
      · rw [if_neg hj]
        exact Nat.succ_le_succ (ih (by omega) (j - 1))
    · omega

theorem chainAt_diag (s : List Char) (junk : Char → Bool) (lo hi : ℕ)
    (hhi : hi ≤ s.length) :
    ∀ m, chainAt s junk lo hi (m + 1) (lo + m) = runLen s junk lo hi (lo + m) := by
  intro m
  induction m with
  | zero =>
    by_cases hc : lo + 0 < hi ∧ junk (s.getD (lo + 0) ' ') = false
    · have hch : (if lo + 0 = 0 then 0 else chainAt s junk lo hi 0 (lo + 0 - 1)) = 0 := by
        split
        · rfl
        · rw [chainAt]
      have hrl : (if lo + 0 = 0 then 0 else runLen s junk lo hi (lo + 0 - 1)) = 0 := by
        split
        · rfl
        · next hlo => exact runLen_eq_zero_of (fun hcon => absurd hcon.1 (by omega))
      rw [chainAt, if_pos ⟨by omega, Nat.le_add_right lo 0, hc.1, rfl, hc.2⟩,
        runLen_eq_of_cond ⟨Nat.le_add_right lo 0, hc.1, hc.2⟩, hch, hrl]
    · rw [chainAt, if_neg (by tauto), runLen_eq_zero_of (by tauto)]
  | succ m ih =>
    by_cases hc : lo + (m + 1) < hi ∧ junk (s.getD (lo + (m + 1)) ' ') = false
    · rw [chainAt, if_pos ⟨by omega, Nat.le_add_right lo (m + 1), hc.1, rfl, hc.2⟩,
        runLen_eq_of_cond ⟨Nat.le_add_right lo (m + 1), hc.1, hc.2⟩,
        if_neg (show ¬ lo + (m + 1) = 0 from by omega),
        if_neg (show ¬ lo + (m + 1) = 0 from by omega),
        show lo + (m + 1) - 1 = lo + m from by omega, ih]
    · rw [chainAt, if_neg (by tauto), runLen_eq_zero_of (by tauto)]

theorem innerStep_fst (old : ℕ → ℕ) (i : ℕ) (acc : (ℕ → ℕ) × ℕ × ℕ × ℕ) (j : ℕ) :
    (innerStep old i acc j).1 =
      fun j' => if j' = j then kOf old j else acc.1 j' := by
  by_cases h : acc.2.2.2 < (if j = 0 then 0 else old (j - 1)) + 1 <;>
    simp [innerStep, kOf, h]

theorem innerStep_snd (old : ℕ → ℕ) (i : ℕ) (acc : (ℕ → ℕ) × ℕ × ℕ × ℕ) (j : ℕ) :
    (innerStep old i acc j).2 =
      if acc.2.2.2 < kOf old j then (i + 1 - kOf old j, j + 1 - kOf old j, kOf old j)
      else acc.2 := by
  by_cases h : acc.2.2.2 < (if j = 0 then 0 else old (j - 1)) + 1 <;>
    simp [innerStep, kOf, h]

theorem foldl_innerStep_fst (old : ℕ → ℕ) (i : ℕ) :
    ∀ (js : List ℕ) (acc : (ℕ → ℕ) × ℕ × ℕ × ℕ) (j : ℕ),
      (js.foldl (innerStep old i) acc).1 j =
        if j ∈ js then kOf old j else acc.1 j := by
  intro js
  induction js with
  | nil => intro acc j; simp
  | cons j0 js' ih =>
    intro acc j
    rw [List.foldl_cons, ih, innerStep_fst]
    by_cases hj : j ∈ js'
    · rw [if_pos hj, if_pos (List.mem_cons_of_mem j0 hj)]
    · rw [if_neg hj]
      by_cases hj0 : j = j0
      · subst hj0
        simp
      · simp [List.mem_cons, hj0, hj]

theorem foldl_innerStep_best_of_le (old : ℕ → ℕ) (i : ℕ) :
    ∀ (js : List ℕ) (acc : (ℕ → ℕ) × ℕ × ℕ × ℕ),
      (∀ j ∈ js, kOf old j ≤ acc.2.2.2) →
      (js.foldl (innerStep old i) acc).2 = acc.2 := by
  intro js
  induction js with
  | nil => intro acc _; rfl
  | cons j0 js' ih =>
    intro acc hb
    rw [List.foldl_cons]
    have hstep : (innerStep old i acc j0).2 = acc.2 := by
      rw [innerStep_snd,
        if_neg (Nat.not_lt.mpr (hb j0 (List.mem_cons_self j0 js')))]
    have hstep2 : (innerStep old i acc j0).2.2.2 = acc.2.2.2 := by rw [hstep]
    rw [ih _ (fun j hj => hstep2 ▸ hb j (List.mem_cons_of_mem j0 hj)), hstep]

theorem filter_range_split (n : ℕ) (p : ℕ → Bool) (i : ℕ) (hin : i < n)
    (hpi : p i = true) :
    (List.range n).filter p =
      ((List.range i).filter p) ++ i :: ((List.range' (i + 1) (n - (i + 1))).filter p) := by
  have hsplit : List.range n = List.range i ++ List.range' i (n - i) := by
    have h1 := List.range'_append_1 0 i (n - i)
    rw [Nat.zero_add, show n - i + i = n from by omega] at h1
    rw [List.range_eq_range', List.range_eq_range', ← h1]
  rw [hsplit, List.filter_append]
  congr 1
  have : List.range' i (n - i) = i :: List.range' (i + 1) (n - (i + 1)) := by
    rw [show n - i = (n - (i + 1)) + 1 from by omega, List.range'_succ]
  rw [this, List.filter_cons_of_pos hpi]


theorem flmLoop_succ (s : List Char) (junk : Char → Bool) (lo hi m : ℕ) :
    flmLoop s junk lo hi (m + 1) =
      flmStep junk s s lo hi (flmLoop s junk lo hi m) (lo + m) := by
  rw [flmLoop, flmLoop, List.range'_concat, List.foldl_append, List.foldl_cons,
    List.foldl_nil, Nat.one_mul]

theorem foldl_innerStep_split (old : ℕ → ℕ) (i x : ℕ) (A B : List ℕ)
    (init : (ℕ → ℕ) × ℕ × ℕ × ℕ)
    (hA : ∀ j ∈ A, kOf old j ≤ init.2.2.2)
    (hBlow : ∀ j ∈ B, kOf old j ≤ kOf old x) :
    ((A ++ x :: B).foldl (innerStep old i) init).2 =
      if init.2.2.2 < kOf old x
      then (i + 1 - kOf old x, x + 1 - kOf old x, kOf old x)
      else init.2 := by
  have hmid := foldl_innerStep_best_of_le old i A init hA
  have hstD2 : (innerStep old i (A.foldl (innerStep old i) init) x).2 =
      if init.2.2.2 < kOf old x
      then (i + 1 - kOf old x, x + 1 - kOf old x, kOf old x)
      else init.2 := by
    rw [innerStep_snd, hmid]
  by_cases hup : init.2.2.2 < kOf old x
  · have hbs : (innerStep old i (A.foldl (innerStep old i) init) x).2.2.2 = kOf old x := by
      rw [hstD2, if_pos hup]
    rw [List.foldl_append, List.foldl_cons,
      foldl_innerStep_best_of_le old i B _ (fun j hj => by rw [hbs]; exact hBlow j hj),
      hstD2]
  · have hbs : (innerStep old i (A.foldl (innerStep old i) init) x).2.2.2 =
        init.2.2.2 := by
      rw [hstD2, if_neg hup]
    rw [List.foldl_append, List.foldl_cons,
      foldl_innerStep_best_of_le old i B _
        (fun j hj => by
          rw [hbs]; exact le_trans (hBlow j hj) (Nat.not_lt.mp hup)),
      hstD2]

/-- One outer-loop iteration of `find_longest_match` on `(s, s)` preserves
the diagonal invariant: the `j2len` row advances to the next `chainAt`
row, and the best block stays diagonal, inside the window, and at least as
long as every non-junk run ending at an already visited position. -/
theorem flmStep_spec (s : List Char) (junk : Char → Bool) (lo hi m : ℕ)
    (hhi : hi ≤ s.length) (hm1 : lo + m + 1 ≤ hi) (st : FlmState)
    (hj2 : ∀ j, st.j2len j = chainAt s junk lo hi m j)
    (hdiag : st.bestj = st.besti)
    (hblo : lo ≤ st.besti)
    (hbound : st.besti + st.bestsize ≤ lo + m)
    (hinv : ∀ e, lo ≤ e → e < lo + m → runLen s junk lo hi e ≤ st.bestsize)
    (hzero : st.bestsize = 0 → st.besti = lo) :
    (∀ j, (flmStep junk s s lo hi st (lo + m)).j2len j =
        chainAt s junk lo hi (m + 1) j) ∧
    (flmStep junk s s lo hi st (lo + m)).bestj =
        (flmStep junk s s lo hi st (lo + m)).besti ∧
    lo ≤ (flmStep junk s s lo hi st (lo + m)).besti ∧
    (flmStep junk s s lo hi st (lo + m)).besti +
        (flmStep junk s s lo hi st (lo + m)).bestsize ≤ lo + m + 1 ∧
    (∀ e, lo ≤ e → e < lo + m + 1 →
      runLen s junk lo hi e ≤ (flmStep junk s s lo hi st (lo + m)).bestsize) ∧
    ((flmStep junk s s lo hi st (lo + m)).bestsize = 0 →
      (flmStep junk s s lo hi st (lo + m)).besti = lo) := by
  have hkey : ∀ j ∈ b2jWindow junk s (s.getD (lo + m) ' ') lo hi,
      kOf st.j2len j = chainAt s junk lo hi (m + 1) j := by
    intro j hj
    rw [kOf, chainAt, if_pos (mem_b2jWindow.mp hj)]
    by_cases hj0 : j = 0
    · rw [if_pos hj0, if_pos hj0]
    · rw [if_neg hj0, if_neg hj0, hj2]
  have hkey0 : ∀ j, j ∉ b2jWindow junk s (s.getD (lo + m) ' ') lo hi →
      chainAt s junk lo hi (m + 1) j = 0 := by
    intro j hj
    rw [chainAt, if_neg (fun hc => hj (mem_b2jWindow.mpr hc))]
  have hgoal1 : ∀ j, (flmStep junk s s lo hi st (lo + m)).j2len j =
      chainAt s junk lo hi (m + 1) j := by
    intro j
    show ((b2jWindow junk s (s.getD (lo + m) ' ') lo hi).foldl
        (innerStep st.j2len (lo + m))
        ((fun _ => 0), st.besti, st.bestj, st.bestsize)).1 j =
      chainAt s junk lo hi (m + 1) j
    rw [foldl_innerStep_fst]
    by_cases hjm : j ∈ b2jWindow junk s (s.getD (lo + m) ' ') lo hi
    · rw [if_pos hjm, hkey j hjm]
    · rw [if_neg hjm, hkey0 j hjm]
  have hbest : ((flmStep junk s s lo hi st (lo + m)).besti,
      (flmStep junk s s lo hi st (lo + m)).bestj,
      (flmStep junk s s lo hi st (lo + m)).bestsize) =
      (if st.bestsize < runLen s junk lo hi (lo + m)
       then (lo + m + 1 - runLen s junk lo hi (lo + m),
         lo + m + 1 - runLen s junk lo hi (lo + m),
         runLen s junk lo hi (lo + m))
       else (st.besti, st.bestj, st.bestsize)) := by
    show ((b2jWindow junk s (s.getD (lo + m) ' ') lo hi).foldl
        (innerStep st.j2len (lo + m))
        ((fun _ => 0), st.besti, st.bestj, st.bestsize)).2 = _
    by_cases hjunk : junk (s.getD (lo + m) ' ') = false
    · -- live diagonal character: split the visited positions at the diagonal
      have hki : kOf st.j2len (lo + m) = runLen s junk lo hi (lo + m) := by
        rw [hkey (lo + m)
          (mem_b2jWindow.mpr ⟨by omega, by omega, by omega, rfl, hjunk⟩),
          chainAt_diag s junk lo hi hhi m]
      have hpi : (fun j => decide (lo ≤ j) && decide (j < hi) &&
          (s.getD j ' ' == s.getD (lo + m) ' ') && !junk (s.getD j ' '))
          (lo + m) = true := by
        simp only [Bool.and_eq_true, decide_eq_true_eq, beq_self_eq_true,
          Bool.not_eq_true', hjunk, and_true]
        omega
      have hsplit : b2jWindow junk s (s.getD (lo + m) ' ') lo hi =
          ((List.range (lo + m)).filter
            (fun j => decide (lo ≤ j) && decide (j < hi) &&
              (s.getD j ' ' == s.getD (lo + m) ' ') && !junk (s.getD j ' '))) ++
          (lo + m) ::
          ((List.range' (lo + m + 1) (s.length - (lo + m + 1))).filter
            (fun j => decide (lo ≤ j) && decide (j < hi) &&
              (s.getD j ' ' == s.getD (lo + m) ' ') && !junk (s.getD j ' '))) :=
        filter_range_split s.length _ (lo + m) (by omega) hpi
      have hA : ∀ j ∈ (List.range (lo + m)).filter
          (fun j => decide (lo ≤ j) && decide (j < hi) &&
            (s.getD j ' ' == s.getD (lo + m) ' ') && !junk (s.getD j ' ')),
          kOf st.j2len j ≤
            (((fun _ => 0), st.besti, st.bestj, st.bestsize) :
              (ℕ → ℕ) × ℕ × ℕ × ℕ).2.2.2 := by
        intro j hj
        have h1 := List.mem_filter.mp hj
        have h2 : j < lo + m := List.mem_range.mp h1.1
        have hjs : j ∈ b2jWindow junk s (s.getD (lo + m) ' ') lo hi :=
          List.mem_filter.mpr ⟨List.mem_range.mpr (by omega), h1.2⟩
        have hjlo : lo ≤ j := (mem_b2jWindow.mp hjs).2.1
        calc kOf st.j2len j = chainAt s junk lo hi (m + 1) j := hkey j hjs
          _ ≤ runLen s junk lo hi j := chainAt_le_runLen s junk lo hi (m + 1) j
          _ ≤ st.bestsize := hinv j hjlo h2
      have hB : ∀ j ∈ (List.range' (lo + m + 1) (s.length - (lo + m + 1))).filter
          (fun j => decide (lo ≤ j) && decide (j < hi) &&
            (s.getD j ' ' == s.getD (lo + m) ' ') && !junk (s.getD j ' ')),
          kOf st.j2len j ≤ kOf st.j2len (lo + m) := by
        intro j hj
        have h1 := List.mem_filter.mp hj
        have h2 := List.mem_range'_1.mp h1.1
        have hjs : j ∈ b2jWindow junk s (s.getD (lo + m) ' ') lo hi :=
          List.mem_filter.mpr ⟨List.mem_range.mpr (by omega), h1.2⟩
        calc kOf st.j2len j = chainAt s junk lo hi (m + 1) j := hkey j hjs
          _ ≤ runLen s junk lo hi (lo + m) :=
            chainAt_le_runLen_diag s junk lo hi m (by omega) j
          _ = kOf st.j2len (lo + m) := hki.symm
      rw [hsplit, foldl_innerStep_split st.j2len (lo + m) (lo + m) _ _ _ hA hB, hki]
    · -- junk diagonal character: nothing is visited in this round
      have hjs : b2jWindow junk s (s.getD (lo + m) ' ') lo hi = [] := by
        apply List.eq_nil_iff_forall_not_mem.mpr
        intro j hj
        have hc := mem_b2jWindow.mp hj
        have h5 := hc.2.2.2.2
        rw [hc.2.2.2.1] at h5
        exact hjunk h5
      have hrl0 : runLen s junk lo hi (lo + m) = 0 :=
        runLen_eq_zero_of (fun hcon => hjunk hcon.2.2)
      rw [hjs, List.foldl_nil, hrl0, if_neg (by omega)]
  have hrle := runLen_le s junk lo hi (lo + m)
  by_cases hup : st.bestsize < runLen s junk lo hi (lo + m)
  · rw [if_pos hup] at hbest
    have hbi := congrArg Prod.fst hbest
    have hbj := congrArg (fun p => p.2.1) hbest
    have hbs := congrArg (fun p => p.2.2) hbest
    simp only at hbi hbj hbs
    refine ⟨hgoal1, by rw [hbi, hbj], by rw [hbi]; omega, by rw [hbi, hbs]; omega,
      ?_, by rw [hbs]; omega⟩
    intro e he1 he2
    rw [hbs]
    rcases Nat.lt_or_ge e (lo + m) with h | h
    · exact le_trans (hinv e he1 h) (by omega)
    · have : e = lo + m := by omega
      rw [this]
  · rw [if_neg hup] at hbest
    have hbi := congrArg Prod.fst hbest
    have hbj := congrArg (fun p => p.2.1) hbest
    have hbs := congrArg (fun p => p.2.2) hbest
    simp only at hbi hbj hbs
    refine ⟨hgoal1, by rw [hbi, hbj, hdiag], by rw [hbi]; exact hblo,
      by rw [hbi, hbs]; omega, ?_, by rw [hbs, hbi]; exact hzero⟩
    intro e he1 he2
    rw [hbs]
    rcases Nat.lt_or_ge e (lo + m) with h | h
    · exact hinv e he1 h
    · have : e = lo + m := by omega
      rw [this]
      omega

/-- The main-loop invariant of `find_longest_match` on `(s, s)`, by
induction over the rows: after `m` rows the best block is diagonal,
inside the visited window, and dominates every non-junk run length. -/
theorem flmLoop_spec (s : List Char) (junk : Char → Bool) (lo hi : ℕ)
    (hhi : hi ≤ s.length) :
    ∀ m, lo + m ≤ hi →
      (∀ j, (flmLoop s junk lo hi m).j2len j = chainAt s junk lo hi m j) ∧
      (flmLoop s junk lo hi m).bestj = (flmLoop s junk lo hi m).besti ∧
      lo ≤ (flmLoop s junk lo hi m).besti ∧
      (flmLoop s junk lo hi m).besti + (flmLoop s junk lo hi m).bestsize ≤ lo + m ∧
      (∀ e, lo ≤ e → e < lo + m →
        runLen s junk lo hi e ≤ (flmLoop s junk lo hi m).bestsize) ∧
      ((flmLoop s junk lo hi m).bestsize = 0 → (flmLoop s junk lo hi m).besti = lo) := by
  intro m
  induction m with
  | zero =>
    intro _
    exact ⟨fun j => rfl, rfl, le_refl lo, le_refl _,
      fun e he1 he2 => absurd he2 (by omega), fun _ => rfl⟩
  | succ m ih =>
    intro hm1
    obtain ⟨i1, i2, i3, i4, i5, i6⟩ := ih (by omega)
    rw [flmLoop_succ]
    exact flmStep_spec s junk lo hi m hhi hm1 (flmLoop s junk lo hi m) i1 i2 i3 i4 i5 i6

/-- On `(s, s)` with a shared window start, a left extension loop started
at a diagonal block returns a diagonal block that moved left by exactly
the amount the size grew. -/
theorem extLeft_diag (s : List Char) (junk : Char → Bool) (lo : ℕ) (w : Bool) :
    ∀ fuel bi bs, lo ≤ bi →
      ∃ bi2, extLeft junk s s lo lo w fuel (bi, bi, bs) = (bi2, bi2, bs + (bi - bi2)) ∧
        lo ≤ bi2 ∧ bi2 ≤ bi := by
  intro fuel
  induction fuel with
  | zero =>
    intro bi bs hbi
    exact ⟨bi, by rw [extLeft, Nat.sub_self, Nat.add_zero], hbi, le_refl bi⟩
  | succ fuel ih =>
    intro bi bs hbi
    rw [extLeft]
    by_cases hc : lo < bi ∧ lo < bi ∧ junk (s.getD (bi - 1) ' ') = w ∧
        s.getD (bi - 1) ' ' = s.getD (bi - 1) ' '
    · rw [if_pos hc]
      obtain ⟨bi2, hres, hg1, hg2⟩ := ih (bi - 1) (bs + 1) (by omega)
      exact ⟨bi2,
        by rw [hres, show bs + 1 + (bi - 1 - bi2) = bs + (bi - bi2) from by omega],
        hg1, by omega⟩
    · rw [if_neg hc]
      exact ⟨bi, by rw [Nat.sub_self, Nat.add_zero], hbi, le_refl bi⟩

/-- A right extension loop whose entry test already fails leaves the block
unchanged, whatever the fuel. -/
theorem extRight_nostep (junk : Char → Bool) (a b : List Char) (ahi bhi : ℕ)
    (w : Bool) (bi bj bs : ℕ)
    (hc : ¬ (bi + bs < ahi ∧ bj + bs < bhi ∧ junk (b.getD (bj + bs) ' ') = w ∧
      a.getD (bi + bs) ' ' = b.getD (bj + bs) ' ')) :
    ∀ fuel, extRight junk a b ahi bhi w fuel (bi, bj, bs) = (bi, bj, bs) := by
  intro fuel
  cases fuel with
  | zero => rw [extRight]
  | succ fuel => rw [extRight, if_neg hc]

/-- On `(s, s)` with a shared window end, a right extension loop started
at a diagonal block keeps it diagonal, only growing the size and never
past the window end. -/
theorem extRight_diag (s : List Char) (junk : Char → Bool) (hi : ℕ) (w : Bool) :
    ∀ fuel bi bs, ∃ bs2, extRight junk s s hi hi w fuel (bi, bi, bs) = (bi, bi, bs2) ∧
      bs ≤ bs2 ∧ (bi + bs ≤ hi → bi + bs2 ≤ hi) := by
  intro fuel
  induction fuel with
  | zero =>
    intro bi bs
    exact ⟨bs, by rw [extRight], le_refl bs, fun h => h⟩
  | succ fuel ih =>
    intro bi bs
    rw [extRight]
    by_cases hc : bi + bs < hi ∧ bi + bs < hi ∧ junk (s.getD (bi + bs) ' ') = w ∧
        s.getD (bi + bs) ' ' = s.getD (bi + bs) ' '
    · rw [if_pos hc]
      obtain ⟨bs2, hres, hg1, hg2⟩ := ih bi (bs + 1)
      exact ⟨bs2, hres, by omega, fun _ => hg2 (by omega)⟩
    · rw [if_neg hc]
      exact ⟨bs, rfl, le_refl bs, fun h => h⟩

/-- On `(s, s)` over the symmetric window `[lo, hi)²`,
`find_longest_match` returns a diagonal block inside the window, and a
nonempty one whenever the window is nonempty (on a junk-only window the
final junk-extension loop still grabs at least one character). -/
theorem findLongestMatch_self (s : List Char) (junk : Char → Bool) (lo hi : ℕ)
    (hhi : hi ≤ s.length) (hlh : lo ≤ hi) :
    ∃ i k, findLongestMatch junk s s lo hi lo hi = (i, i, k) ∧
      lo ≤ i ∧ i + k ≤ hi ∧ (lo < hi → 1 ≤ k) := by
  obtain ⟨hj2, hdiag, hblo, hbound, hinv, hzero⟩ :=
    flmLoop_spec s junk lo hi hhi (hi - lo) (by omega)
  set B := (flmLoop s junk lo hi (hi - lo)).besti with hB
  set K := (flmLoop s junk lo hi (hi - lo)).bestsize with hK
  have hstart : findLongestMatch junk s s lo hi lo hi =
      extRight junk s s hi hi true hi
        (extLeft junk s s lo lo true
          (extRight junk s s hi hi false hi
            (extLeft junk s s lo lo false B
              (B, (flmLoop s junk lo hi (hi - lo)).bestj, K))).1
          (extRight junk s s hi hi false hi
            (extLeft junk s s lo lo false B
              (B, (flmLoop s junk lo hi (hi - lo)).bestj, K)))) := rfl
  rw [hdiag] at hstart
  obtain ⟨b1, h1, h1lo, h1le⟩ := extLeft_diag s junk lo false B B K hblo
  rw [h1] at hstart
  obtain ⟨k2, h2, h2ge, h2le⟩ := extRight_diag s junk hi false hi b1 (K + (B - b1))
  rw [h2] at hstart
  have hstep3 : findLongestMatch junk s s lo hi lo hi =
      extRight junk s s hi hi true hi
        (extLeft junk s s lo lo true b1 (b1, b1, k2)) := hstart
  obtain ⟨b3, h3, h3lo, h3le⟩ := extLeft_diag s junk lo true b1 b1 k2 h1lo
  rw [h3] at hstep3
  obtain ⟨k4, h4, h4ge, h4le⟩ := extRight_diag s junk hi true hi b3 (k2 + (b1 - b3))
  rw [h4] at hstep3
  have hk2hi : b1 + k2 ≤ hi := h2le (by omega)
  have hk4hi : b3 + k4 ≤ hi := h4le (by omega)
  refine ⟨b3, k4, hstep3, h3lo, hk4hi, ?_⟩
  intro hlt
  by_cases hK0 : K = 0
  · have hBlo : B = lo := hzero hK0
    have hrl : runLen s junk lo hi lo = 0 := by
      have := hinv lo (le_refl lo) (by omega)
      omega
    have hjt : junk (s.getD lo ' ') = true := by
      cases hb : junk (s.getD lo ' ') with
      | false =>
        have := runLen_eq_of_cond ⟨le_refl lo, hlt, hb⟩
        omega
      | true => rfl
    have hb1 : b1 = lo := by omega
    have hidx : b1 + (K + (B - b1)) = lo := by omega
    have hns := extRight_nostep junk s s hi hi false b1 b1 (K + (B - b1))
      (fun hcon => by
        rw [hidx, hjt] at hcon
        exact absurd hcon.2.2.1 (by decide)) hi
    have hk2 : k2 = K + (B - b1) := congrArg (fun p => p.2.2) (h2.symm.trans hns)
    have hb3 : b3 = lo := by omega
    have hbs3 : k2 + (b1 - b3) = 0 := by omega
    rw [hbs3, hb3] at h4
    obtain ⟨hp, hhp⟩ : ∃ hp, hi = hp + 1 := ⟨hi - 1, by omega⟩
    rw [hhp] at h4
    rw [extRight] at h4
    rw [if_pos ⟨by omega, by omega, by rw [Nat.add_zero]; exact hjt, rfl⟩] at h4
    rw [Nat.zero_add] at h4
    obtain ⟨kr, hres, hge2, _⟩ := extRight_diag s junk (hp + 1) true hp lo 1
    rw [hres] at h4
    have hk4 : kr = k4 := congrArg (fun p => p.2.2) h4
    omega
  · omega

/-- `get_matching_blocks` on `(s, s)` matches the whole window: the top
block is diagonal and nonempty, and both residual sub-windows are again
symmetric, so induction on the fuel sums the window size. -/
theorem matchingTotal_self (s : List Char) (junk : Char → Bool) :
    ∀ fuel lo hi, hi ≤ s.length → lo ≤ hi → hi - lo ≤ fuel →
      matchingTotal junk s s fuel lo hi lo hi = hi - lo := by
  intro fuel
  induction fuel with
  | zero =>
    intro lo hi _ _ hf
    rw [matchingTotal]
    omega
  | succ fuel ih =>
    intro lo hi hhi hlh hf
    obtain ⟨i, k, hm, hilo, hik, hpos⟩ := findLongestMatch_self s junk lo hi hhi hlh
    rw [matchingTotal, hm]
    by_cases hk0 : k = 0
    · have hle : hi ≤ lo := by
        by_contra hgt
        have := hpos (by omega)
        omega
      rw [if_pos hk0]
      omega
    · rw [if_neg hk0]
      have hk1 : 1 ≤ k := by omega
      rw [ih lo i (by omega) (by omega) (by omega),
        ih (i + k) hi hhi (by omega) (by omega)]
      show k + (i - lo) + (hi - (i + k)) = hi - lo
      omega

/-- `SequenceMatcher(None, s, s).ratio()` is exactly 1. -/
theorem sequenceMatcherRatio_self (s : List Char) : sequenceMatcherRatio s s = 1 := by
  rw [sequenceMatcherRatio]
  by_cases h0 : s.length + s.length = 0
  · rw [if_pos h0]
  · rw [if_neg h0,
      matchingTotal_self s (autojunkOf s) (s.length + s.length) 0 s.length
        (le_refl s.length) (Nat.zero_le s.length) (by omega)]
    have hne : ((s.length + s.length : ℕ) : ℚ) ≠ 0 := Nat.cast_ne_zero.mpr h0
    rw [show 2 * (s.length - 0) = s.length + s.length from by omega]
    exact div_self hne

/-- C5 (amended): for every string, `calculate_similarity` of the string
against itself is exactly 100.0, whatever the isort/black formatters do
(both sides are formatted identically, `SequenceMatcher.ratio()` on two
equal strings is 1, and `round(1.0 * 100, 2)` is 100.0).  The second
half of the original claim — symmetry under swapping the two inputs —
is false: see the counterexample above, where the greedy longest-block
selection of `SequenceMatcher` gives 50.0 one way and 75.0 the other. -/
theorem calculate_similarity_self_100
    (isortCode blackFmt : List Char → Option (List Char)) (code : List Char) :
    calculate_similarity isortCode blackFmt code code = 100 := by
  rw [calculate_similarity, sequenceMatcherRatio_self, round2,
    show (1 : ℚ) * 100 * 100 = ((10000 : ℤ) : ℚ) from by norm_num,
    roundHalfEven_intCast]
  norm_num

end GitAnalyzer
